import Mathlib

/-!
Verification development for the entity extraction / fusion / classification /
confidence-scoring pipeline of `src/ai-agent/services/intelligence-service.ts`
(with data shapes from `src/types/intelligence.ts` and `src/types/extraction.ts`).

The TypeScript code is shallowly embedded: numbers are modelled as rationals
(the arithmetic involved is exact decimal arithmetic), JS objects holding
entity attributes are modelled as association lists from string keys to
`Option String` values (`none` models a key explicitly set to `undefined`;
an absent key and a key set to `undefined` read the same but spread/assign
differently, which the model preserves), and the external backends
(the trained NLP recognizer, the generative-model HTTP endpoint, and the
`JSON.parse` step applied to the extracted JSON span) are parameters of the
pipeline functions, so theorems quantify over every possible backend
behaviour.
-/

/-- `EntityType` from `src/types/extraction.ts`. -/
inductive EntityType where
  | business
  | product
  | location
  | contact
  | person
  | service
  deriving DecidableEq

/-- The string value of an `EntityType` tag (TS union of string literals). -/
def EntityType.toStr : EntityType → String
  | .business => "business"
  | .product => "product"
  | .location => "location"
  | .contact => "contact"
  | .person => "person"
  | .service => "service"

/-- `ExtractionSource` from `src/types/extraction.ts`. -/
inductive ExtractionSource where
  | website
  | instagram
  | facebook
  | document
  | pdf
  | linkedin
  deriving DecidableEq

/-- A JS attribute bag: insertion-ordered string keys mapping to string values,
with `none` modelling a key whose value is `undefined`. -/
abbrev Attrs := List (String × Option String)

/-- First-match association-list lookup (JS property read on unique keys). -/
def alookup {α : Type} : List (String × α) → String → Option α
  | [], _ => none
  | p :: ps, k => if p.1 = k then some p.2 else alookup ps k

/-- JS property read `obj[k]`: an absent key and a key holding `undefined`
both read as `undefined` (`none`). -/
def readAttr (a : Attrs) (k : String) : Option String :=
  match alookup a k with
  | some v => v
  | none => none

/-- JS property assignment `obj[k] = v`: update in place if the key exists
(keeping its position), otherwise append. -/
def setAttrRaw (a : Attrs) (k : String) (v : Option String) : Attrs :=
  if (alookup a k).isSome then
    a.map (fun p => if p.1 = k then (p.1, v) else p)
  else
    a ++ [(k, v)]

/-- JS object spread `{...a, ...b}`: keys of `a` in order (values overridden
by `b` on collision), then the keys only in `b`, in `b`'s order. -/
def spreadAttrs (a b : Attrs) : Attrs :=
  a.map (fun p =>
    match alookup b p.1 with
    | some v => (p.1, v)
    | none => p)
  ++ b.filter (fun p => !(alookup a p.1).isSome)

/-- JS truthiness of a read attribute value (strings: empty string is falsy). -/
def truthyVal : Option String → Bool
  | some s => s != ""
  | none => false

/-- JS truthiness of an optional numeric field (`0` is falsy). -/
def truthyNum : Option ℚ → Bool
  | some c => c != 0
  | none => false

/-- `TextContext` from `src/types/intelligence.ts`. -/
structure TextContext where
  text : String
  sectionName : Option String := none
  page : Option String := none
  importance : ℚ
  deriving DecidableEq

/-- `AnalyzedEntity` from `src/types/intelligence.ts`. -/
structure AnalyzedEntity where
  type : EntityType
  name : String
  attributes : Attrs
  rawText : String
  confidence : ℚ
  contexts : List TextContext
  deriving DecidableEq

/-- `ContentAnalysisOptions` from `src/types/intelligence.ts`. -/
structure ContentAnalysisOptions where
  confidenceThreshold : Option ℚ := none
  maxEntities : Option ℕ := none
  languageModel : Option String := none
  extractStructured : Option Bool := none
  deriving DecidableEq

/-- `ContentAnalysisRequest` from `src/types/intelligence.ts`. -/
structure ContentAnalysisRequest where
  content : String
  sourceUrl : String
  sourceType : ExtractionSource
  entityTypes : List EntityType
  options : Option ContentAnalysisOptions := none
  deriving DecidableEq

/-- `ContentAnalysisResponse` from `src/types/intelligence.ts`. -/
structure ContentAnalysisResponse where
  entities : List AnalyzedEntity
  summary : Option String := none
  confidence : ℚ
  processingTime : ℚ
  deriving DecidableEq

/-- JS `String.prototype.toLowerCase` (character-wise lowering). -/
def jsLower (s : String) : String :=
  String.mk (s.toList.map Char.toLower)

/-- JS `String.prototype.trim`: strip leading and trailing whitespace. -/
def jsTrim (s : String) : String :=
  String.mk (((s.toList.dropWhile Char.isWhitespace).reverse.dropWhile
    Char.isWhitespace).reverse)

/-! ## Entity Fuser (`mergeEntities`, lines 421-458) -/

/-- The dedup key from line 430: `` `${entity.type}:${entity.name.toLowerCase().trim()}` ``. -/
def entityKey (e : AnalyzedEntity) : String :=
  e.type.toStr ++ ":" ++ jsTrim (jsLower e.name)

/-- The entity map of `mergeEntities`, keyed by `entityKey` (a JS `Map`
preserves insertion order; updating an existing key keeps its position). -/
abbrev EMap := List (String × AnalyzedEntity)

/-- The duplicate-merge of lines 436-449: union attributes (incoming wins),
append contexts, take the maximum confidence. Type and name are untouched. -/
def mergeInto (old incoming : AnalyzedEntity) : AnalyzedEntity :=
  { old with
    attributes := spreadAttrs old.attributes incoming.attributes
    contexts := old.contexts ++ incoming.contexts
    confidence := max old.confidence incoming.confidence }

/-- One iteration of the loop of lines 428-454: merge into the existing entry
for the key, or insert a (shallow) clone of the entity at the end. -/
def mergeStep (m : EMap) (e : AnalyzedEntity) : EMap :=
  if (alookup m (entityKey e)).isSome then
    m.map (fun p => if p.1 = entityKey e then (p.1, mergeInto p.2 e) else p)
  else
    m ++ [(entityKey e, e)]

/-- `mergeEntities` (lines 421-458): concatenate both lists, fold them into
the keyed map, and return the values in insertion order. -/
def mergeEntities (nlpEntities aiEntities : List AnalyzedEntity) : List AnalyzedEntity :=
  (((nlpEntities ++ aiEntities).foldl mergeStep ([] : EMap)).map Prod.snd)

/-! Helper notions used to state and prove properties of the fuser. -/

/-- Confidences of the entities of `l` whose dedup key is `k`. -/
def keyConfs (l : List AnalyzedEntity) (k : String) : List ℚ :=
  (l.filter (fun e => decide (entityKey e = k))).map (fun e => e.confidence)

/-- Maximum of a list of rationals (`none` on the empty list). -/
def omaxOf : List ℚ → Option ℚ
  | [] => none
  | c :: cs => some (cs.foldl max c)

/-- Merge two optional maxima by `max`. -/
def omerge : Option ℚ → Option ℚ → Option ℚ
  | none, b => b
  | some a, none => some a
  | some a, some b => some (max a b)

/-- Confidence stored in the entity map at key `k`. -/
def confAtMap (m : EMap) (k : String) : Option ℚ :=
  (alookup m k).map (fun e => e.confidence)

/-- The per-key fused confidence of an entity list. -/
def confK (l : List AnalyzedEntity) (k : String) : Option ℚ :=
  omaxOf (keyConfs l k)

/-! ## JSON span extraction (lines 378 and 568)

Both response parsers run `response.match(/\x7b[\s\S]*\x7d/)`: the greedy
regex matches from the first opening brace to the last closing brace,
provided that closing brace comes strictly after the opening one. -/

/-- The span matched by the greedy `` \x7b[\s\S]*\x7d `` regex, if any. -/
def jsonSpan (s : String) : Option String :=
  let cs := s.toList
  match cs.findIdx? (fun c => c == '{') with
  | none => none
  | some i =>
    match cs.reverse.findIdx? (fun c => c == '}') with
    | none => none
    | some jr =>
      let j := cs.length - 1 - jr
      if i < j then some (String.mk ((cs.drop i).take (j - i + 1))) else none

/-! ## Rule-based (NLP) extractor (lines 205-271) -/

/-- An entity row as produced by the external NLP recognizer
(`result.entities`); the code reads `.entity`, `.utterance`, `.accuracy`
and `.option`. -/
structure NlpEntity where
  entity : String
  utterance : String
  accuracy : ℚ
  option : Option String
  deriving DecidableEq

/-- The `switch (entity.entity)` of lines 231-250: five supported tags,
everything else is skipped (`service` is not produced by this path). -/
def nlpTypeMap : String → Option EntityType
  | "business" => some .business
  | "product" => some .product
  | "location" => some .location
  | "contact" => some .contact
  | "person" => some .person
  | _ => none

/-- `convertNlpEntitiesToAnalyzedEntities` (lines 224-271). -/
def convertNlpEntitiesToAnalyzedEntities (nlpEntities : List NlpEntity) :
    List AnalyzedEntity :=
  nlpEntities.filterMap (fun e =>
    match nlpTypeMap e.entity with
    | none => none
    | some t => some
        { type := t
          name := e.utterance
          attributes := [("category", e.option)]
          rawText := e.utterance
          confidence := e.accuracy
          contexts := [{ text := e.utterance, importance := 1 }] })

/-! ## Model-based extractor (lines 280-412) -/

/-- One row of the `entities` array of a decoded model response; optional
fields model the `|| default` coalescing on lines 399-403. -/
structure AIEntityRow where
  rowType : String
  name : String
  attributes : Attrs
  confidence : Option ℚ
  context : Option String
  deriving DecidableEq

/-- Outcome of `JSON.parse` plus the `entities`-array shape check
(lines 384-389) on the extracted JSON span; the parse itself is external
(`JSON.parse`), so it is a parameter of the pipeline. -/
inductive DecodedAIResponse where
  | parseError
  | noEntitiesArray
  | entities (rows : List AIEntityRow)

/-- The string tag of a row mapped back to the `EntityType` union
(the `entityTypes.includes(entity.type as EntityType)` filter of line 393
compares the raw string against the requested tags). -/
def strToEntityType : String → Option EntityType
  | "business" => some .business
  | "product" => some .product
  | "location" => some .location
  | "contact" => some .contact
  | "person" => some .person
  | "service" => some .service
  | _ => none

/-- `entity.confidence || 0.5` (line 401): a missing — or zero, since `0`
is falsy — self-reported score becomes `0.5`. -/
def rowConfidence : Option ℚ → ℚ
  | some c => if c = 0 then 1/2 else c
  | none => 1/2

/-- `entity.context || entity.name` (line 403). -/
def rowContext (r : AIEntityRow) : String :=
  match r.context with
  | some s => if s = "" then r.name else s
  | none => r.name

/-- The filter-and-map of lines 392-407. -/
def parseRows (entityTypes : List EntityType) (rows : List AIEntityRow) :
    List AnalyzedEntity :=
  rows.filterMap (fun r =>
    match strToEntityType r.rowType with
    | none => none
    | some t =>
      if t ∈ entityTypes then
        some
          { type := t
            name := r.name
            attributes := r.attributes
            rawText := r.name
            confidence := rowConfidence r.confidence
            contexts := [{ text := rowContext r, importance := 8/10 }] }
      else none)

/-- `parseAIResponseToEntities` (lines 375-412): extract the JSON span, decode
it, and map the rows; every failure path returns the empty list. -/
def parseAIResponseToEntities (decode : String → DecodedAIResponse)
    (response : String) (entityTypes : List EntityType) : List AnalyzedEntity :=
  match jsonSpan response with
  | none => []
  | some j =>
    match decode j with
    | .parseError => []
    | .noEntitiesArray => []
    | .entities rows => parseRows entityTypes rows

/-- `constructEntityExtractionPrompt` (lines 303-335); the content is cut to
15,000 characters (line 333). -/
def constructEntityExtractionPrompt (content : String)
    (entityTypes : List EntityType) : String :=
  let entityTypesStr := String.intercalate ", " (entityTypes.map EntityType.toStr)
  "Extract the following entity types from the text: " ++ entityTypesStr ++
  ".\nFor each entity found, include type, name, attributes, confidence.\n" ++
  "Respond with a JSON object.\nText to analyze:\n" ++
  String.mk (content.toList.take 15000)

/-! ## Product classifier (lines 466-614) -/

/-- One row of the `classifications` array of a decoded classification
response (lines 588-606). -/
structure ClassificationRow where
  name : String
  category : Option String
  subcategory : Option String
  hsCode : Option String
  confidence : Option ℚ
  deriving DecidableEq

/-- Outcome of `JSON.parse` plus the `classifications`-array shape check
(lines 574-579) on the extracted JSON span. -/
inductive DecodedClassification where
  | parseError
  | noClassificationsArray
  | classifications (rows : List ClassificationRow)

/-- One classification row's in-place attribute patch (lines 594-599): set
`category` unconditionally, `subcategory` and `hsCode` when truthy. In the
source these writes go to `entity.attributes` of the per-product clone,
which is the **same object** as the carried-forward entity's `attributes`
(the line-584 spread copies the reference, not the object). -/
def rowPatch (a : Attrs) (row : ClassificationRow) : Attrs :=
  let a1 := setAttrRaw a "category" row.category
  let a2 :=
    if truthyVal row.subcategory then setAttrRaw a1 "subcategory" row.subcategory
    else a1
  if truthyVal row.hsCode then setAttrRaw a2 "hsCode" row.hsCode else a2

/-- The confidence blend of lines 602-605, applied to the clone's own
`confidence` property (a primitive, copied by value by the spread, so it is
not shared with the carried-forward entity). -/
def blendConf (c : ℚ) (row : ClassificationRow) : ℚ :=
  match row.confidence with
  | some c2 => if c2 = 0 then c else (c + c2) / 2
  | none => c

/-- A product clone made by the line-584 spread: the scalar fields (`name`,
`confidence`) are copied by value; `attributes` is the same object as the
original's, identified here by the original's position in the carried
entity list. -/
structure CloneRef where
  idx : ℕ
  name : String
  confidence : ℚ
  deriving DecidableEq

/-- The attributes objects of the carried entities, by position: the
classifier mutates them through the shared references. -/
abbrev AttrStore := List Attrs

/-- The clone map of lines 581-585, keyed by lowercased name. -/
abbrev CMap := List (String × CloneRef)

/-- JS `Map.set`: update in place keeping the entry's position when the key
exists, else append. -/
def setAssoc {α : Type} (m : List (String × α)) (k : String) (v : α) :
    List (String × α) :=
  if (alookup m k).isSome then
    m.map (fun p => if p.1 = k then (p.1, v) else p)
  else
    m ++ [(k, v)]

/-- Lines 582-585: build the lowercase-name-keyed map of product clones
(`productIdx` pairs each product entity with its position in the carried
list, which identifies its shared attributes object). -/
def buildCloneMap (productIdx : List (ℕ × AnalyzedEntity)) : CMap :=
  productIdx.foldl
    (fun m p => setAssoc m (jsLower p.2.name) ⟨p.1, p.2.name, p.2.confidence⟩) []

/-- One classification row applied to the clone map and the shared attribute
store (lines 588-606): patch the matched clone's shared attributes object in
place and blend the clone's own confidence. -/
def applyRowsStep (st : CMap × AttrStore) (row : ClassificationRow) :
    CMap × AttrStore :=
  let k := jsLower row.name
  match alookup st.1 k with
  | none => st
  | some c =>
    (st.1.map (fun p =>
      if p.1 = k then (p.1, { p.2 with confidence := blendConf p.2.confidence row })
      else p),
     st.2.set c.idx (rowPatch (st.2.getD c.idx []) row))

/-- The success path of `parseProductClassificationResponse` (lines 581-609):
the returned value is the clone list (map values in insertion order); the
attribute patches land in the shared store. -/
def applyClassificationRows (rows : List ClassificationRow)
    (productIdx : List (ℕ × AnalyzedEntity)) (store : AttrStore) :
    List CloneRef × AttrStore :=
  let st := rows.foldl applyRowsStep (buildCloneMap productIdx, store)
  (st.1.map Prod.snd, st.2)

/-- What the failure paths return: the product entities themselves (the
original objects, trivially aliasing their own attributes). -/
def originalsAsClones (productIdx : List (ℕ × AnalyzedEntity)) : List CloneRef :=
  productIdx.map (fun p => ⟨p.1, p.2.name, p.2.confidence⟩)

/-- `parseProductClassificationResponse` (lines 562-614): every failure path
returns the original entities and leaves the store unmodified. -/
def parseProductClassificationResponse (decode : String → DecodedClassification)
    (response : String) (productIdx : List (ℕ × AnalyzedEntity))
    (store : AttrStore) : List CloneRef × AttrStore :=
  match jsonSpan response with
  | none => (originalsAsClones productIdx, store)
  | some j =>
    match decode j with
    | .parseError => (originalsAsClones productIdx, store)
    | .noClassificationsArray => (originalsAsClones productIdx, store)
    | .classifications rows => applyClassificationRows rows productIdx store

/-- `${value}` string interpolation of an attribute value (line 524);
`undefined` prints as `"undefined"`. -/
def showAttrVal : Option String → String
  | some s => s
  | none => "undefined"

/-- `constructProductClassificationPrompt` (lines 520-553). -/
def constructProductClassificationPrompt (productEntities : List AnalyzedEntity) :
    String :=
  let productList := String.intercalate "\n" (productEntities.map (fun e =>
    let attributesStr := String.intercalate ", "
      (e.attributes.map (fun p => p.1 ++ ": " ++ showAttrVal p.2))
    "- Name: " ++ e.name ++
      (if attributesStr != "" then ", Attributes: " ++ attributesStr else "")))
  "Classify the following products with a category, a subcategory if " ++
  "applicable, and the most appropriate HS code.\nProducts to classify:\n" ++
  productList ++ "\nRespond with a JSON object."

/-! ## The backend parameters

The NLP recognizer, the generative-model HTTP call (`callAIModel`, which
either returns the raw response text or throws), and the two `JSON.parse`
shape decodings are external; the pipeline is embedded as a function of
their behaviour. -/

structure Backend where
  ready : Bool
  nlpProcess : String → Except String (List NlpEntity)
  modelCall : String → Except String String
  decodeEntities : String → DecodedAIResponse
  decodeClassifications : String → DecodedClassification

/-- `extractEntitiesWithNLP` (lines 205-216): any recognizer error degrades
to the empty list. -/
def extractEntitiesWithNLP (B : Backend) (content : String) : List AnalyzedEntity :=
  match B.nlpProcess content with
  | .error _ => []
  | .ok es => convertNlpEntitiesToAnalyzedEntities es

/-- `extractEntitiesWithAI` (lines 280-294): a backend error degrades to the
empty list; a returned response is parsed best-effort. -/
def extractEntitiesWithAI (B : Backend) (content : String)
    (entityTypes : List EntityType) : List AnalyzedEntity :=
  match B.modelCall (constructEntityExtractionPrompt content entityTypes) with
  | .error _ => []
  | .ok response => parseAIResponseToEntities B.decodeEntities response entityTypes

/-- A product entity as the classification prompt sees it: its scalar
fields plus its current shared attributes. -/
def productForPrompt (store : AttrStore) (p : ℕ × AnalyzedEntity) :
    AnalyzedEntity :=
  { p.2 with attributes := store.getD p.1 [] }

/-- `classifyProductEntities` (lines 498-512): a backend error returns the
product entities unmodified (and in particular leaves the store alone). -/
def classifyProductEntities (B : Backend)
    (productIdx : List (ℕ × AnalyzedEntity)) (store : AttrStore) :
    List CloneRef × AttrStore :=
  match B.modelCall (constructProductClassificationPrompt
      (productIdx.map (productForPrompt store))) with
  | .error _ => (originalsAsClones productIdx, store)
  | .ok response =>
    parseProductClassificationResponse B.decodeClassifications response
      productIdx store

/-- The copy-back of lines 478-486 for one entity of the carried list: the
two assignments read the (current) shared attributes of the classification
result matched by exact name and write the entity's own shared attributes,
sequentially — line 483 reads after line 482 has written. -/
def copyBackStep (clones : List CloneRef) (store : AttrStore)
    (p : ℕ × AnalyzedEntity) : AttrStore :=
  if p.2.type = .product then
    match clones.find? (fun c => c.name == p.2.name) with
    | some cl =>
      let a1 := setAttrRaw (store.getD p.1 []) "category"
        (readAttr (store.getD cl.idx []) "category")
      let store1 := store.set p.1 a1
      let a2 := setAttrRaw (store1.getD p.1 []) "hsCode"
        (readAttr (store1.getD cl.idx []) "hsCode")
      store1.set p.1 a2
    | none => store
  else store

/-- The product entities of the carried list, with their positions
(line 471's filter). -/
def prodIdx (entities : List AnalyzedEntity) : List (ℕ × AnalyzedEntity) :=
  entities.enum.filter (fun p => decide (p.2.type = .product))

/-- The initial attribute store: entity `i`'s attributes object. -/
def storeOf (entities : List AnalyzedEntity) : AttrStore :=
  entities.map (fun e => e.attributes)

/-- The net effect of lines 482-483 on an entity whose matched
classification result shares its attributes object (the post-fusion case):
each key is assigned its own read-back value, which only materialises an
absent key as an explicit `undefined` entry. -/
def selfAssignAttrs (a : Attrs) : Attrs :=
  let a1 := setAttrRaw a "category" (readAttr a "category")
  setAttrRaw a1 "hsCode" (readAttr a1 "hsCode")

/-- The final state of the shared attributes objects after the classifier
pass: the patch loop's mutations (through the clone references) followed by
the copy-back loop's mutations. -/
def classifyStore (B : Backend) (entities : List AnalyzedEntity) : AttrStore :=
  let res := classifyProductEntities B (prodIdx entities) (storeOf entities)
  entities.enum.foldl (copyBackStep res.1) res.2

/-- `classifyEntities` (lines 466-490), with the JS reference semantics made
explicit: the returned list is the input entity objects themselves, whose
attributes objects (the store) have been mutated both by the classifier's
patch loop (through the shared clone references) and by the copy-back loop;
each entity's own `confidence` is never written. -/
def classifyEntities (B : Backend) (entities : List AnalyzedEntity) :
    List AnalyzedEntity :=
  if (prodIdx entities).length > 0 then
    entities.enum.map
      (fun p => { p.2 with attributes := (classifyStore B entities).getD p.1 [] })
  else entities

/-! ## Confidence scorer (lines 622-689) -/

/-- JS truthiness of an attribute read (`entity.attributes.category || ...`). -/
def truthyAttr (e : AnalyzedEntity) (k : String) : Bool :=
  truthyVal (readAttr e.attributes k)

/-- The `adjustedConfidence` accumulator of lines 625-645: type-specific
multiplicative boost before the cap. -/
def adjustedConfidence (e : AnalyzedEntity) : ℚ :=
  match e.type with
  | .business => e.confidence * (1 + min ((e.name.length : ℚ) / 50) (3/10))
  | .product =>
    if truthyAttr e "category" || truthyAttr e "hsCode" then
      e.confidence * (12/10)
    else e.confidence
  | .location =>
    if truthyAttr e "countryCode" || truthyAttr e "postalCode" then
      e.confidence * (11/10)
    else e.confidence
  | _ => e.confidence

/-- The per-entity adjustment of `calculateEntityConfidence` (lines 622-656):
type-specific multiplicative boost, then cap at 1.0 (line 648). -/
def adjustEntity (e : AnalyzedEntity) : AnalyzedEntity :=
  { e with confidence := min (adjustedConfidence e) 1 }

/-- `calculateEntityConfidence` (lines 622-656). -/
def calculateEntityConfidence (entities : List AnalyzedEntity) :
    List AnalyzedEntity :=
  entities.map adjustEntity

/-- The fixed per-type weight table of lines 670-677 (the `|| 0.5` fallback
of line 683 is unreachable: the table is total on the union). -/
def typeWeight : EntityType → ℚ
  | .business => 1
  | .product => 8/10
  | .location => 7/10
  | .contact => 6/10
  | .person => 5/10
  | .service => 8/10

/-- `calculateOverallConfidence` (lines 664-689). -/
def calculateOverallConfidence (entities : List AnalyzedEntity) : ℚ :=
  if entities.length = 0 then 0
  else
    let acc := entities.foldl
      (fun (p : ℚ × ℚ) e =>
        (p.1 + e.confidence * typeWeight e.type, p.2 + typeWeight e.type))
      ((0 : ℚ), (0 : ℚ))
    if acc.2 > 0 then acc.1 / acc.2 else 0

/-- The weighted mean exactly as the specification words it: the sum of
confidence-times-weight over the sum of weights. -/
def weightedMeanSpec (entities : List AnalyzedEntity) : ℚ :=
  (entities.map (fun e => e.confidence * typeWeight e.type)).sum /
    (entities.map (fun e => typeWeight e.type)).sum

/-! ## `analyzeContent` (lines 158-197)

The pipeline: NLP extraction and model extraction (each degrading to `[]` on
failure), fusion, classification, per-entity scoring, overall confidence.
`processingTime` is wall-clock time, passed here as the `elapsed` parameter;
the not-ready guard of lines 159-161 throws. -/

def analyzeContent (B : Backend) (request : ContentAnalysisRequest)
    (elapsed : ℚ) : Except String ContentAnalysisResponse :=
  if B.ready = false then
    .error "Intelligence Service is not ready. Please wait for initialization to complete."
  else
    let nlpEntities := extractEntitiesWithNLP B request.content
    let aiEntities := extractEntitiesWithAI B request.content request.entityTypes
    let mergedEntities := mergeEntities nlpEntities aiEntities
    let classifiedEntities := classifyEntities B mergedEntities
    let entitiesWithConfidence := calculateEntityConfidence classifiedEntities
    let overallConfidence := calculateOverallConfidence entitiesWithConfidence
    .ok
      { entities := entitiesWithConfidence
        summary := none
        confidence := overallConfidence
        processingTime := elapsed }

/-! ## Concrete objects used by scenario conjuncts, witnesses and
counterexamples -/

/-- Scenario A, first extractor's business entity. -/
def acmeA : AnalyzedEntity :=
  { type := .business, name := "Acme Exports", attributes := []
    rawText := "Acme Exports", confidence := 6/10
    contexts := [{ text := "Acme Exports", importance := 1 }] }

/-- Scenario A, second extractor's case-differing business entity. -/
def acmeB : AnalyzedEntity :=
  { type := .business, name := "ACME EXPORTS", attributes := []
    rawText := "ACME EXPORTS", confidence := 9/10
    contexts := [{ text := "ACME EXPORTS", importance := 8/10 }] }

/-- The fused Scenario A entity: first-seen name, appended contexts, max
confidence. -/
def acmeFused : AnalyzedEntity :=
  { type := .business, name := "Acme Exports", attributes := []
    rawText := "Acme Exports", confidence := 9/10
    contexts := [{ text := "Acme Exports", importance := 1 },
                 { text := "ACME EXPORTS", importance := 8/10 }] }

/-- A fused product entity entering the classifier with confidence 0.6. -/
def prodWidget : AnalyzedEntity :=
  { type := .product, name := "Widget", attributes := []
    rawText := "Widget", confidence := 6/10
    contexts := [{ text := "Widget", importance := 8/10 }] }

/-- A classification row for it: category, subcategory, HS code and a
classification confidence 0.8. -/
def widgetRow : ClassificationRow :=
  { name := "Widget", category := some "Tools", subcategory := some "Hand Tools"
    hsCode := some "820300", confidence := some (8/10) }

/-- A backend whose classification call succeeds and decodes to
`[widgetRow]`; the extraction side is unused. -/
def classifierBackend : Backend :=
  { ready := true
    nlpProcess := fun _ => .error "unused"
    modelCall := fun _ => .ok "\x7b\x7d"
    decodeEntities := fun _ => .parseError
    decodeClassifications := fun _ => .classifications [widgetRow] }

/-- What the carried-forward list actually holds after `classifyEntities`:
all three attribute patches are present (the clone's `attributes` is the
same object as the original's), but the confidence is the untouched 0.6 —
the blend stays on the clone. -/
def widgetAfterClassify : AnalyzedEntity :=
  { type := .product, name := "Widget"
    attributes := [("category", some "Tools"), ("subcategory", some "Hand Tools"),
                   ("hsCode", some "820300")]
    rawText := "Widget", confidence := 6/10
    contexts := [{ text := "Widget", importance := 8/10 }] }

/-- An NLP recognizer row of type `product`. -/
def nlpGadget : NlpEntity :=
  { entity := "product", utterance := "Gadget", accuracy := 9/10
    option := some "gadgets" }

/-- A backend where only the rule-based extractor yields anything: the model
backend is down and both decoders fail. -/
def nlpOnlyBackend : Backend :=
  { ready := true
    nlpProcess := fun _ => .ok [nlpGadget]
    modelCall := fun _ => .error "backend down"
    decodeEntities := fun _ => .parseError
    decodeClassifications := fun _ => .parseError }

/-- A request asking for business entities only. -/
def businessOnlyRequest : ContentAnalysisRequest :=
  { content := "some page text", sourceUrl := "https://example.test"
    sourceType := .website, entityTypes := [.business], options := none }

/-- The entity the pipeline actually returns for `nlpOnlyBackend` and
`businessOnlyRequest`: a `product` entity although only `business` was
requested (the NLP path never filters on the requested types), boosted to
confidence 1 by the scorer. -/
def finalGadget : AnalyzedEntity :=
  { type := .product, name := "Gadget"
    attributes := [("category", some "gadgets"), ("hsCode", none)]
    rawText := "Gadget", confidence := 1
    contexts := [{ text := "Gadget", importance := 1 }] }

/-- The full response for that run. -/
def gadgetResponse : ContentAnalysisResponse :=
  { entities := [finalGadget], summary := none, confidence := 1
    processingTime := 0 }

/-- A well-formed model-response row whose self-reported confidence is 0. -/
def zeroConfRow : AIEntityRow :=
  { rowType := "product", name := "Widget", attributes := []
    confidence := some 0, context := none }

/-- Decoder for a well-formed response holding exactly `zeroConfRow`. -/
def decodeZeroRow : String → DecodedAIResponse :=
  fun _ => .entities [zeroConfRow]

/-- A well-formed row with a nonzero self-reported confidence. -/
def threeQuarterRow : AIEntityRow :=
  { rowType := "product", name := "Widget", attributes := []
    confidence := some (3/4), context := none }

/-- Decoder for a well-formed response holding exactly `threeQuarterRow`. -/
def decodeThreeQuarterRow : String → DecodedAIResponse :=
  fun _ => .entities [threeQuarterRow]

/-- A decoder modelling a `JSON.parse` failure. -/
def decodeAlwaysFails : String → DecodedAIResponse :=
  fun _ => .parseError

/-- The options object used to show that `options` is dead: every field set. -/
def populatedOptions : ContentAnalysisOptions :=
  { confidenceThreshold := some (99/100), maxEntities := some 0
    languageModel := some "alternate-model", extractStructured := some true }

/-- `businessOnlyRequest` with every option populated. -/
def businessOnlyRequestOpt : ContentAnalysisRequest :=
  { businessOnlyRequest with options := some populatedOptions }

/-! ## Association-list and maximum lemmas for the fuser -/

/-- Keys of an association map, in insertion order. -/
def keysOf {α : Type} (m : List (String × α)) : List String :=
  m.map Prod.fst

/-- Every entry of the entity map stores an entity whose dedup key is the
entry's key (an invariant of `mergeEntities`). -/
def wfMap (m : EMap) : Prop :=
  ∀ p ∈ m, entityKey p.2 = p.1

theorem alookup_append {α : Type} (m1 m2 : List (String × α)) (k : String) :
    alookup (m1 ++ m2) k =
      (match alookup m1 k with
       | some v => some v
       | none => alookup m2 k) := by
  induction m1 with
  | nil => simp [alookup]
  | cons p ps ih =>
    by_cases h : p.1 = k
    · simp [alookup, h]
    · simp [alookup, h, ih]

theorem alookup_mapUpdate {α : Type} (m : List (String × α)) (ek : String)
    (f : α → α) (k : String) :
    alookup (m.map (fun p => if p.1 = ek then (p.1, f p.2) else p)) k =
      if k = ek then (alookup m k).map f else alookup m k := by
  induction m with
  | nil => by_cases h : k = ek <;> simp [alookup, h]
  | cons p ps ih =>
    by_cases hp : p.1 = ek
    · by_cases hk : k = ek
      · simp [alookup, hp, hk, hp.trans hk.symm, ih]
      · have hek : ¬ ek = k := fun hc => hk hc.symm
        have hp1 : ¬ p.1 = k := fun hc => hk (hc.symm.trans hp)
        simp [alookup, hp, hk, hp1, ih, if_neg hek]
    · by_cases hpk : p.1 = k
      · have hk : ¬ k = ek := fun hc => hp (hpk.trans hc)
        simp [alookup, hp, hpk, hk]
      · simp [alookup, hp, hpk, ih]

theorem alookup_eq_none_iff {α : Type} (m : List (String × α)) (k : String) :
    alookup m k = none ↔ k ∉ keysOf m := by
  induction m with
  | nil => simp [alookup, keysOf]
  | cons p ps ih =>
    by_cases h : p.1 = k
    · simp [alookup, keysOf, h]
    · simp only [alookup, h, if_false, ih, keysOf, List.map_cons, List.mem_cons]
      constructor
      · intro hni hm
        rcases hm with hm | hm
        · exact h hm.symm
        · exact hni hm
      · intro hni hm
        exact hni (Or.inr hm)

theorem alookup_isSome_iff_mem {α : Type} (m : List (String × α)) (k : String) :
    (alookup m k).isSome = true ↔ k ∈ keysOf m := by
  cases halo : alookup m k with
  | none => simp [(alookup_eq_none_iff m k).mp halo]
  | some v =>
    simp only [Option.isSome_some, true_iff]
    by_contra hc
    rw [← alookup_eq_none_iff] at hc
    rw [halo] at hc
    simp at hc

theorem alookup_of_mem_nodup {α : Type} (m : List (String × α)) (k : String)
    (v : α) (hmem : (k, v) ∈ m) (hnd : (keysOf m).Nodup) : alookup m k = some v := by
  induction m with
  | nil => simp at hmem
  | cons p ps ih =>
    rcases List.mem_cons.mp hmem with h | h
    · cases h
      simp [alookup]
    · have hk : ¬ p.1 = k := by
        intro hc
        have : k ∈ keysOf ps := List.mem_map.mpr ⟨(k, v), h, rfl⟩
        rw [keysOf] at hnd
        simp only [List.map_cons, List.nodup_cons] at hnd
        exact hnd.1 (hc ▸ this)
      have hnd' : (keysOf ps).Nodup := by
        rw [keysOf] at hnd ⊢
        simp only [List.map_cons, List.nodup_cons] at hnd
        exact hnd.2
      simp [alookup, hk, ih h hnd']

theorem omerge_none_right (a : Option ℚ) : omerge a none = a := by
  cases a <;> rfl

theorem omerge_none_left (b : Option ℚ) : omerge none b = b := rfl

theorem omerge_comm (a b : Option ℚ) : omerge a b = omerge b a := by
  cases a <;> cases b <;> simp [omerge, max_comm]

theorem omerge_assoc (a b c : Option ℚ) :
    omerge (omerge a b) c = omerge a (omerge b c) := by
  cases a <;> cases b <;> cases c <;> simp [omerge, max_assoc]

theorem omerge_self (a : Option ℚ) : omerge a a = a := by
  cases a <;> simp [omerge]

theorem foldl_max_shift (cs : List ℚ) (a b : ℚ) :
    cs.foldl max (max a b) = max a (cs.foldl max b) := by
  induction cs generalizing b with
  | nil => rfl
  | cons d cs ih => simp only [List.foldl_cons, max_assoc, ih]

theorem omaxOf_cons (c : ℚ) (cs : List ℚ) :
    omaxOf (c :: cs) = omerge (some c) (omaxOf cs) := by
  cases cs with
  | nil => rfl
  | cons d cs => simp [omaxOf, omerge, foldl_max_shift]

theorem omaxOf_append (x y : List ℚ) :
    omaxOf (x ++ y) = omerge (omaxOf x) (omaxOf y) := by
  induction x with
  | nil => simp [omaxOf, omerge]
  | cons c cs ih =>
    rw [List.cons_append, omaxOf_cons, ih, omaxOf_cons, omerge_assoc]

theorem omaxOf_mem (x : List ℚ) (c : ℚ) (h : omaxOf x = some c) : c ∈ x := by
  induction x generalizing c with
  | nil => simp [omaxOf] at h
  | cons d ds ih =>
    rw [omaxOf_cons] at h
    cases hds : omaxOf ds with
    | none =>
      rw [hds] at h
      simp [omerge] at h
      simp [h]
    | some e =>
      rw [hds] at h
      simp only [omerge, Option.some.injEq] at h
      subst h
      rcases max_choice d e with hm | hm
      · rw [hm]
        exact List.mem_cons_self _ _
      · rw [hm]
        exact List.mem_cons_of_mem _ (ih e hds)

theorem keyConfs_cons (e : AnalyzedEntity) (l : List AnalyzedEntity) (k : String) :
    keyConfs (e :: l) k =
      if entityKey e = k then e.confidence :: keyConfs l k else keyConfs l k := by
  by_cases h : entityKey e = k <;> simp [keyConfs, List.filter_cons, h]

theorem keyConfs_append (a b : List AnalyzedEntity) (k : String) :
    keyConfs (a ++ b) k = keyConfs a k ++ keyConfs b k := by
  simp [keyConfs, List.filter_append]

theorem keyConfs_sub (l : List AnalyzedEntity) (k : String) (c : ℚ)
    (h : c ∈ keyConfs l k) : ∃ e ∈ l, entityKey e = k ∧ e.confidence = c := by
  rcases List.mem_map.mp h with ⟨e, he, hc⟩
  rcases List.mem_filter.mp he with ⟨hel, hek⟩
  exact ⟨e, hel, by simpa using hek, hc⟩

/-! ## Invariants of the fuser fold -/

theorem mergeInto_key (old e : AnalyzedEntity) :
    entityKey (mergeInto old e) = entityKey old := rfl

theorem mergeStep_confAt (m : EMap) (e : AnalyzedEntity) (k : String) :
    confAtMap (mergeStep m e) k =
      if k = entityKey e then omerge (confAtMap m k) (some e.confidence)
      else confAtMap m k := by
  unfold mergeStep
  by_cases hs : (alookup m (entityKey e)).isSome
  · rw [if_pos hs]
    unfold confAtMap
    rw [alookup_mapUpdate m (entityKey e) (fun x => mergeInto x e) k]
    by_cases hk : k = entityKey e
    · rw [if_pos hk, if_pos hk]
      cases halo : alookup m k with
      | none =>
        rw [hk] at halo
        rw [halo] at hs
        simp at hs
      | some v => simp [omerge, mergeInto]
    · rw [if_neg hk, if_neg hk]
  · rw [if_neg hs]
    unfold confAtMap
    rw [alookup_append]
    by_cases hk : k = entityKey e
    · have hnone : alookup m k = none := by
        rw [hk]
        exact Option.not_isSome_iff_eq_none.mp hs
      rw [hnone, if_pos hk]
      simp [alookup, hk, omerge]
    · cases halo : alookup m k with
      | some v => simp [halo, hk]
      | none =>
        have : ¬ entityKey e = k := fun hc => hk hc.symm
        simp [halo, hk, alookup, this]

theorem foldl_confAt (l : List AnalyzedEntity) :
    ∀ (m : EMap) (k : String),
      confAtMap (l.foldl mergeStep m) k =
        omerge (confAtMap m k) (omaxOf (keyConfs l k)) := by
  induction l with
  | nil =>
    intro m k
    simp [keyConfs, omaxOf, omerge_none_right]
  | cons e l ih =>
    intro m k
    rw [List.foldl_cons, ih, mergeStep_confAt, keyConfs_cons]
    by_cases hk : k = entityKey e
    · rw [if_pos hk, if_pos hk.symm, omaxOf_cons, ← omerge_assoc]
    · rw [if_neg hk, if_neg (fun hc => hk hc.symm)]

theorem mergeStep_keys (m : EMap) (e : AnalyzedEntity) :
    keysOf (mergeStep m e) =
      if (alookup m (entityKey e)).isSome then keysOf m
      else keysOf m ++ [entityKey e] := by
  unfold mergeStep keysOf
  by_cases hs : (alookup m (entityKey e)).isSome
  · rw [if_pos hs, if_pos hs, List.map_map]
    apply List.map_congr_left
    intro p hp
    by_cases h : p.1 = entityKey e <;> simp [h]
  · rw [if_neg hs, if_neg hs]
    simp

theorem mergeStep_wf (m : EMap) (e : AnalyzedEntity) (h : wfMap m) :
    wfMap (mergeStep m e) := by
  unfold mergeStep
  by_cases hs : (alookup m (entityKey e)).isSome
  · rw [if_pos hs]
    intro p hp
    rcases List.mem_map.mp hp with ⟨q, hq, hqe⟩
    by_cases hq1 : q.1 = entityKey e
    · rw [← hqe]
      simp only [if_pos hq1]
      exact (mergeInto_key q.2 e).trans (h q hq)
    · rw [← hqe]
      simp only [if_neg hq1]
      exact h q hq
  · rw [if_neg hs]
    intro p hp
    rcases List.mem_append.mp hp with hp | hp
    · exact h p hp
    · simp at hp
      rw [hp]

theorem mergeStep_nodup (m : EMap) (e : AnalyzedEntity)
    (h : (keysOf m).Nodup) : (keysOf (mergeStep m e)).Nodup := by
  rw [mergeStep_keys]
  by_cases hs : (alookup m (entityKey e)).isSome
  · rw [if_pos hs]
    exact h
  · rw [if_neg hs]
    have : entityKey e ∉ keysOf m := by
      rw [← alookup_eq_none_iff]
      exact Option.not_isSome_iff_eq_none.mp hs
    simp [List.nodup_append, h, this]

theorem foldl_wf (l : List AnalyzedEntity) :
    ∀ m : EMap, wfMap m → wfMap (l.foldl mergeStep m) := by
  induction l with
  | nil => exact fun m h => h
  | cons e l ih => exact fun m h => ih (mergeStep m e) (mergeStep_wf m e h)

theorem foldl_nodup (l : List AnalyzedEntity) :
    ∀ m : EMap, (keysOf m).Nodup → (keysOf (l.foldl mergeStep m)).Nodup := by
  induction l with
  | nil => exact fun m h => h
  | cons e l ih => exact fun m h => ih (mergeStep m e) (mergeStep_nodup m e h)

theorem wfMap_nil : wfMap [] := by
  intro p hp
  simp at hp

theorem keyConfs_map_snd (m : EMap) (hwf : wfMap m) (hnd : (keysOf m).Nodup)
    (k : String) : omaxOf (keyConfs (m.map Prod.snd) k) = confAtMap m k := by
  induction m with
  | nil => rfl
  | cons p ps ih =>
    have hwf' : wfMap ps := fun q hq => hwf q (List.mem_cons_of_mem _ hq)
    have hk1 : entityKey p.2 = p.1 := hwf p (List.mem_cons_self _ _)
    have hnd1 : p.1 ∉ keysOf ps := by
      rw [keysOf] at hnd
      simp only [List.map_cons, List.nodup_cons] at hnd
      exact hnd.1
    have hnd' : (keysOf ps).Nodup := by
      rw [keysOf] at hnd
      simp only [List.map_cons, List.nodup_cons] at hnd
      exact hnd.2
    rw [List.map_cons, keyConfs_cons]
    by_cases h : p.1 = k
    · rw [if_pos (hk1.trans h)]
      have hempty : keyConfs (ps.map Prod.snd) k = [] := by
        rw [keyConfs, List.map_eq_nil_iff]
        rw [List.filter_eq_nil_iff]
        intro e he
        rcases List.mem_map.mp he with ⟨q, hq, hqe⟩
        have : entityKey e = q.1 := by
          rw [← hqe]
          exact hwf' q hq
        simp only [this, decide_eq_true_eq]
        intro hc
        exact hnd1 (h ▸ hc ▸ List.mem_map.mpr ⟨q, hq, rfl⟩)
      rw [hempty]
      simp [omaxOf, confAtMap, alookup, h]
    · rw [if_neg (fun hc => h (hk1 ▸ hc))]
      rw [ih hwf' hnd']
      simp [confAtMap, alookup, h]

theorem map_entityKey_of_wf (m : EMap) (hwf : wfMap m) :
    (m.map Prod.snd).map entityKey = keysOf m := by
  rw [List.map_map]
  apply List.map_congr_left
  intro p hp
  exact hwf p hp

theorem mem_fold_lookup (m : EMap) (hwf : wfMap m) (hnd : (keysOf m).Nodup)
    (e : AnalyzedEntity) (h : e ∈ m.map Prod.snd) :
    alookup m (entityKey e) = some e := by
  rcases List.mem_map.mp h with ⟨p, hp, hpe⟩
  have hk : entityKey e = p.1 := by
    rw [← hpe]
    exact hwf p hp
  rw [hk]
  exact alookup_of_mem_nodup m p.1 e (by rw [← hpe]; exact hp) hnd

theorem merged_wf (a b : List AnalyzedEntity) :
    wfMap ((a ++ b).foldl mergeStep []) :=
  foldl_wf (a ++ b) [] wfMap_nil

theorem merged_nodup (a b : List AnalyzedEntity) :
    (keysOf ((a ++ b).foldl mergeStep [])).Nodup :=
  foldl_nodup (a ++ b) [] (by simp [keysOf])

theorem merged_keys_nodup (a b : List AnalyzedEntity) :
    ((mergeEntities a b).map entityKey).Nodup := by
  rw [mergeEntities, map_entityKey_of_wf _ (merged_wf a b)]
  exact merged_nodup a b

theorem merged_conf_eq_max (a b : List AnalyzedEntity) (e : AnalyzedEntity)
    (h : e ∈ mergeEntities a b) :
    confK (a ++ b) (entityKey e) = some e.confidence := by
  have h1 : alookup ((a ++ b).foldl mergeStep []) (entityKey e) = some e :=
    mem_fold_lookup _ (merged_wf a b) (merged_nodup a b) e h
  have h2 := foldl_confAt (a ++ b) [] (entityKey e)
  rw [confAtMap, h1] at h2
  rw [show confAtMap [] (entityKey e) = none from rfl, omerge_none_left] at h2
  rw [confK]
  simpa using h2.symm

theorem merged_confK (a b : List AnalyzedEntity) (k : String) :
    confK (mergeEntities a b) k = confK (a ++ b) k := by
  rw [mergeEntities, confK,
    keyConfs_map_snd _ (merged_wf a b) (merged_nodup a b),
    foldl_confAt (a ++ b) [] k]
  rfl

theorem confK_append_comm (a b : List AnalyzedEntity) (k : String) :
    confK (a ++ b) k = confK (b ++ a) k := by
  rw [confK, confK, keyConfs_append, keyConfs_append, omaxOf_append, omaxOf_append,
    omerge_comm]

theorem mergeStep_lookup_mono (m : EMap) (e : AnalyzedEntity) (k : String)
    (h : (alookup m k).isSome = true) :
    (alookup (mergeStep m e) k).isSome = true := by
  rw [alookup_isSome_iff_mem] at h ⊢
  rw [mergeStep_keys]
  by_cases hs : (alookup m (entityKey e)).isSome
  · rw [if_pos hs]
    exact h
  · rw [if_neg hs]
    exact List.mem_append_left _ h

theorem foldl_lookup_mono (l : List AnalyzedEntity) :
    ∀ (m : EMap) (k : String), (alookup m k).isSome = true →
      (alookup (l.foldl mergeStep m) k).isSome = true := by
  induction l with
  | nil => exact fun m k h => h
  | cons e l ih =>
    exact fun m k h => ih (mergeStep m e) k (mergeStep_lookup_mono m e k h)

theorem mergeStep_lookup_self (m : EMap) (e : AnalyzedEntity) :
    (alookup (mergeStep m e) (entityKey e)).isSome = true := by
  rw [alookup_isSome_iff_mem, mergeStep_keys]
  by_cases hs : (alookup m (entityKey e)).isSome
  · rw [if_pos hs]
    exact (alookup_isSome_iff_mem m (entityKey e)).mp hs
  · rw [if_neg hs]
    exact List.mem_append_right _ (List.mem_singleton.mpr rfl)

theorem fold_all_present (l : List AnalyzedEntity) :
    ∀ (m : EMap), ∀ e ∈ l, (alookup (l.foldl mergeStep m) (entityKey e)).isSome = true := by
  induction l with
  | nil =>
    intro m e he
    simp at he
  | cons e' l ih =>
    intro m e he
    rcases List.mem_cons.mp he with he | he
    · rw [he, List.foldl_cons]
      exact foldl_lookup_mono l (mergeStep m e') (entityKey e')
        (mergeStep_lookup_self m e')
    · exact ih (mergeStep m e') e he

theorem fold_keys_stable (l : List AnalyzedEntity) :
    ∀ (m : EMap), (∀ e ∈ l, (alookup m (entityKey e)).isSome = true) →
      keysOf (l.foldl mergeStep m) = keysOf m := by
  induction l with
  | nil => exact fun m _ => rfl
  | cons e l ih =>
    intro m hall
    rw [List.foldl_cons]
    rw [ih (mergeStep m e)
      (fun e' he' => mergeStep_lookup_mono m e _ (hall e' (List.mem_cons_of_mem _ he')))]
    rw [mergeStep_keys, if_pos (hall e (List.mem_cons_self _ _))]

theorem merged_keys_self (L : List AnalyzedEntity) :
    (mergeEntities L L).map entityKey = (mergeEntities L []).map entityKey := by
  rw [mergeEntities, mergeEntities,
    map_entityKey_of_wf _ (merged_wf L L), map_entityKey_of_wf _ (merged_wf L []),
    List.append_nil, List.foldl_append]
  exact fold_keys_stable L (L.foldl mergeStep []) (fold_all_present L [])

theorem confK_isSome_iff (l : List AnalyzedEntity) (k : String) :
    (confK l k).isSome = true ↔ k ∈ l.map entityKey := by
  rw [confK]
  cases hkc : keyConfs l k with
  | nil =>
    simp only [omaxOf, Option.isSome_none, Bool.false_eq_true, false_iff]
    intro hmem
    rcases List.mem_map.mp hmem with ⟨e, he, hek⟩
    have : e.confidence ∈ keyConfs l k := by
      rw [keyConfs]
      exact List.mem_map.mpr ⟨e, List.mem_filter.mpr ⟨he, by simp [hek]⟩, rfl⟩
    rw [hkc] at this
    simp at this
  | cons c cs =>
    simp only [omaxOf, Option.isSome_some, true_iff]
    have : c ∈ keyConfs l k := by
      rw [hkc]
      exact List.mem_cons_self _ _
    rcases keyConfs_sub l k c this with ⟨e, he, hek, _⟩
    exact List.mem_map.mpr ⟨e, he, hek⟩

/-- **C1.** For every pair of input entity lists, `mergeEntities` returns a
list in which no two entities share the dedup key
`type + ":" + lowercased-trimmed(name)`, and the entity kept for a key
carries exactly the maximum of the confidences of all input entities with
that key (never a blend). In particular (Scenario A), fusing two `business`
entities named `"Acme Exports"` / `"ACME EXPORTS"` with confidences 0.6 and
0.9 yields one business entity of confidence 0.9. -/
theorem mergeEntities_dedup_and_max (a b : List AnalyzedEntity) :
    ((mergeEntities a b).map entityKey).Nodup ∧
    (∀ e ∈ mergeEntities a b, confK (a ++ b) (entityKey e) = some e.confidence) ∧
    (mergeEntities [acmeA] [acmeB]).map (fun e => (e.type, e.confidence))
      = [(.business, 9/10)] := by
  refine ⟨merged_keys_nodup a b, fun e he => merged_conf_eq_max a b e he, ?_⟩
  with_unfolding_all decide

theorem mergeEntities_dedup_and_max_witness :
    confK ([acmeA] ++ [acmeB]) (entityKey acmeFused) = some acmeFused.confidence :=
  (mergeEntities_dedup_and_max [acmeA] [acmeB]).2.1 acmeFused
    (by with_unfolding_all decide)

/-- **C4 counterexample.** `mergeEntities` is not commutative as claimed: with
the case-differing Scenario A entities, the kept entity's `name` (and its
context order) depends on which list comes first, so the two fused results
are different lists. -/
theorem mergeEntities_comm_counterexample :
    (mergeEntities [acmeA] [acmeB]).map (fun e => e.name) = ["Acme Exports"] ∧
    (mergeEntities [acmeB] [acmeA]).map (fun e => e.name) = ["ACME EXPORTS"] ∧
    mergeEntities [acmeA] [acmeB] ≠ mergeEntities [acmeB] [acmeA] := by
  with_unfolding_all decide

/-- **C4 amended.** Swapping the two input lists preserves the fused key set
and the per-key confidence (`max` is commutative), but not the kept name,
attributes or context order. -/
theorem mergeEntities_comm_keys_conf (a b : List AnalyzedEntity) (k : String) :
    confK (mergeEntities a b) k = confK (mergeEntities b a) k ∧
    (k ∈ (mergeEntities a b).map entityKey ↔ k ∈ (mergeEntities b a).map entityKey) := by
  have h : confK (mergeEntities a b) k = confK (mergeEntities b a) k := by
    rw [merged_confK, merged_confK, confK_append_comm]
  refine ⟨h, ?_⟩
  rw [← confK_isSome_iff, ← confK_isSome_iff, h]

/-- **C5.** Fusing a list with itself yields exactly the keys of fusing the
list alone, and every key keeps the maximum confidence it has in the input
list (idempotence of the fuser on keys and confidences). -/
theorem mergeEntities_idempotent (L : List AnalyzedEntity) :
    (mergeEntities L L).map entityKey = (mergeEntities L []).map entityKey ∧
    ∀ k, confK (mergeEntities L L) k = confK L k := by
  refine ⟨merged_keys_self L, fun k => ?_⟩
  rw [merged_confK, confK, keyConfs_append, omaxOf_append, omerge_self]
  rfl

/-! ## Scorer lemmas and claims C6, C7 -/

/-- **C6.** On any list whose confidences lie in `[0,1]`, the scorer leaves
every adjusted confidence at most 1.0, and every product entity carrying a
truthy `category` or `hsCode` attribute is boosted monotonically: its
adjusted confidence is at least its pre-adjustment confidence (and still at
most 1.0 by the first part). -/
theorem calculateEntityConfidence_bounds (l : List AnalyzedEntity)
    (h : ∀ e ∈ l, 0 ≤ e.confidence ∧ e.confidence ≤ 1) :
    (∀ e ∈ calculateEntityConfidence l, e.confidence ≤ 1) ∧
    (∀ e ∈ l, e.type = .product →
      (truthyAttr e "category" || truthyAttr e "hsCode") = true →
      e.confidence ≤ (adjustEntity e).confidence) := by
  constructor
  · intro e he
    rcases List.mem_map.mp he with ⟨e', _, rfl⟩
    exact min_le_right _ _
  · intro e he htype htruthy
    have h1 := (h e he).1
    have h2 := (h e he).2
    have hconf : (adjustEntity e).confidence = min (e.confidence * (12/10)) 1 := by
      simp [adjustEntity, adjustedConfidence, htype, htruthy]
    rw [hconf]
    apply le_min _ h2
    nlinarith [h1]

theorem calculateEntityConfidence_bounds_witness :
    widgetAfterClassify.confidence ≤ (adjustEntity widgetAfterClassify).confidence ∧
    (adjustEntity widgetAfterClassify).confidence ≤ 1 := by
  have h := calculateEntityConfidence_bounds [widgetAfterClassify]
    (by with_unfolding_all decide)
  constructor
  · exact h.2 widgetAfterClassify (List.mem_singleton.mpr rfl) rfl
      (by with_unfolding_all decide)
  · exact h.1 (adjustEntity widgetAfterClassify)
      (List.mem_map.mpr ⟨widgetAfterClassify, List.mem_singleton.mpr rfl, rfl⟩)

theorem foldl_weight_pair (l : List AnalyzedEntity) :
    ∀ a b : ℚ,
      l.foldl
        (fun (p : ℚ × ℚ) e =>
          (p.1 + e.confidence * typeWeight e.type, p.2 + typeWeight e.type))
        (a, b)
      = (a + (l.map (fun e => e.confidence * typeWeight e.type)).sum,
         b + (l.map (fun e => typeWeight e.type)).sum) := by
  induction l with
  | nil => simp
  | cons e l ih =>
    intro a b
    rw [List.foldl_cons, ih]
    simp only [List.map_cons, List.sum_cons, Prod.mk.injEq]
    constructor <;> ring

theorem typeWeight_pos (t : EntityType) : 0 < typeWeight t := by
  cases t <;> norm_num [typeWeight]

theorem sum_weights_pos (l : List AnalyzedEntity) (h : l ≠ []) :
    0 < (l.map (fun e => typeWeight e.type)).sum := by
  cases l with
  | nil => simp at h
  | cons e l =>
    simp only [List.map_cons, List.sum_cons]
    have h1 := typeWeight_pos e.type
    have h2 : 0 ≤ (l.map (fun e => typeWeight e.type)).sum :=
      List.sum_nonneg (fun x hx => by
        rcases List.mem_map.mp hx with ⟨e', _, rfl⟩
        exact (typeWeight_pos e'.type).le)
    linarith

/-- **C7.** The overall confidence is the weighted mean of the entity
confidences under the fixed per-type weight table — business weighted
highest, product and service next (tied), then location, with contact and
person lowest — and the empty entity list scores exactly 0. -/
theorem calculateOverallConfidence_spec :
    calculateOverallConfidence [] = 0 ∧
    (∀ l : List AnalyzedEntity, l ≠ [] →
      calculateOverallConfidence l = weightedMeanSpec l) ∧
    (typeWeight .business > typeWeight .product ∧
     typeWeight .product = typeWeight .service ∧
     typeWeight .service > typeWeight .location ∧
     typeWeight .location > typeWeight .contact ∧
     typeWeight .contact > typeWeight .person) := by
  refine ⟨rfl, fun l hl => ?_, by norm_num [typeWeight]⟩
  unfold calculateOverallConfidence
  rw [if_neg (by simpa using hl)]
  simp only [foldl_weight_pair, zero_add]
  rw [if_pos (sum_weights_pos l hl)]
  rfl

theorem calculateOverallConfidence_spec_witness :
    calculateOverallConfidence [acmeA] = weightedMeanSpec [acmeA] :=
  calculateOverallConfidence_spec.2.1 [acmeA] (List.cons_ne_nil _ _)

/-! ## Classifier lemmas and claim C3 -/

theorem alookup_mem {α : Type} (m : List (String × α)) (k : String) (v : α)
    (h : alookup m k = some v) : (k, v) ∈ m := by
  induction m with
  | nil => simp [alookup] at h
  | cons p ps ih =>
    by_cases hp : p.1 = k
    · simp only [alookup, if_pos hp] at h
      have hv : p.2 = v := Option.some.inj h
      have hkv : (k, v) = p := by
        obtain ⟨p1, p2⟩ := p
        rw [show p1 = k from hp, show p2 = v from hv]
      rw [hkv]
      exact List.mem_cons_self _ _
    · simp only [alookup, if_neg hp] at h
      exact List.mem_cons_of_mem _ (ih h)

theorem setAssoc_mem {α : Type} (m : List (String × α)) (k : String) (v : α) :
    ∀ q ∈ setAssoc m k v, q ∈ m ∨ q = (k, v) := by
  intro q hq
  unfold setAssoc at hq
  by_cases hs : (alookup m k).isSome
  · rw [if_pos hs] at hq
    rcases List.mem_map.mp hq with ⟨p, hp, hpq⟩
    by_cases hpk : p.1 = k
    · right
      rw [← hpq, if_pos hpk, hpk]
    · left
      rw [← hpq, if_neg hpk]
      exact hp
  · rw [if_neg hs] at hq
    rcases List.mem_append.mp hq with h | h
    · exact Or.inl h
    · right
      simpa using h

theorem foldl_setAssoc_entries (PI : List (ℕ × AnalyzedEntity)) :
    ∀ (m : CMap) (q : String × CloneRef),
      q ∈ PI.foldl
        (fun m p => setAssoc m (jsLower p.2.name) ⟨p.1, p.2.name, p.2.confidence⟩) m →
      q ∈ m ∨ ∃ p ∈ PI,
        q = (jsLower p.2.name, (⟨p.1, p.2.name, p.2.confidence⟩ : CloneRef)) := by
  induction PI with
  | nil => exact fun m q hq => Or.inl hq
  | cons p0 PI ih =>
    intro m q hq
    rw [List.foldl_cons] at hq
    rcases ih _ q hq with h | ⟨p, hp, hq2⟩
    · rcases setAssoc_mem _ _ _ q h with h2 | h2
      · exact Or.inl h2
      · exact Or.inr ⟨p0, List.mem_cons_self _ _, h2⟩
    · exact Or.inr ⟨p, List.mem_cons_of_mem _ hp, hq2⟩

theorem buildCloneMap_entries (PI : List (ℕ × AnalyzedEntity))
    (q : String × CloneRef) (hq : q ∈ buildCloneMap PI) :
    ∃ p ∈ PI,
      q = (jsLower p.2.name, (⟨p.1, p.2.name, p.2.confidence⟩ : CloneRef)) := by
  rcases foldl_setAssoc_entries PI [] q hq with h | h
  · simp at h
  · exact h

theorem foldl_setAssoc_fresh (PI : List (ℕ × AnalyzedEntity)) :
    ∀ m : CMap, (∀ p ∈ PI, jsLower p.2.name ∉ keysOf m) →
      (PI.map (fun p => jsLower p.2.name)).Nodup →
      PI.foldl
        (fun m p => setAssoc m (jsLower p.2.name) ⟨p.1, p.2.name, p.2.confidence⟩) m
      = m ++ PI.map
          (fun p => (jsLower p.2.name, (⟨p.1, p.2.name, p.2.confidence⟩ : CloneRef))) := by
  induction PI with
  | nil =>
    intro m _ _
    simp
  | cons p0 PI ih =>
    intro m hfresh hnd
    rw [List.foldl_cons]
    have hnone : alookup m (jsLower p0.2.name) = none :=
      (alookup_eq_none_iff _ _).mpr (hfresh p0 (List.mem_cons_self _ _))
    have hset : setAssoc m (jsLower p0.2.name)
        (⟨p0.1, p0.2.name, p0.2.confidence⟩ : CloneRef)
        = m ++ [(jsLower p0.2.name, ⟨p0.1, p0.2.name, p0.2.confidence⟩)] := by
      unfold setAssoc
      rw [hnone]
      simp
    simp only [List.map_cons, List.nodup_cons] at hnd
    rw [hset, ih (m ++ [(jsLower p0.2.name,
        (⟨p0.1, p0.2.name, p0.2.confidence⟩ : CloneRef))])
      ?fresh hnd.2, List.map_cons, List.append_assoc]
    rfl
    case fresh =>
      intro p hp hmem
      rw [keysOf, List.map_append] at hmem
      rcases List.mem_append.mp hmem with h | h
      · exact hfresh p (List.mem_cons_of_mem _ hp) h
      · simp only [List.map_cons, List.map_nil, List.mem_singleton] at h
        exact hnd.1 (List.mem_map.mpr ⟨p, hp, h⟩)

theorem buildCloneMap_eq_map (PI : List (ℕ × AnalyzedEntity))
    (hnd : (PI.map (fun p => jsLower p.2.name)).Nodup) :
    buildCloneMap PI = PI.map
      (fun p => (jsLower p.2.name, (⟨p.1, p.2.name, p.2.confidence⟩ : CloneRef))) := by
  have h := foldl_setAssoc_fresh PI [] (by intro p _; simp [keysOf]) hnd
  simpa [buildCloneMap] using h

theorem buildCloneMap_lookup (PI : List (ℕ × AnalyzedEntity))
    (hnd : (PI.map (fun p => jsLower p.2.name)).Nodup)
    (p : ℕ × AnalyzedEntity) (hp : p ∈ PI) :
    alookup (buildCloneMap PI) (jsLower p.2.name)
      = some ⟨p.1, p.2.name, p.2.confidence⟩ := by
  rw [buildCloneMap_eq_map PI hnd]
  apply alookup_of_mem_nodup
  · exact List.mem_map.mpr ⟨p, hp, rfl⟩
  · rw [keysOf, List.map_map]
    exact hnd

theorem applyRowsStep_lookup (st : CMap × AttrStore) (row : ClassificationRow)
    (k : String) :
    (alookup (applyRowsStep st row).1 k).map (fun c => (c.idx, c.name))
      = (alookup st.1 k).map (fun c => (c.idx, c.name)) := by
  unfold applyRowsStep
  cases h : alookup st.1 (jsLower row.name) with
  | none => simp only [h]
  | some c =>
    simp only [h]
    rw [alookup_mapUpdate st.1 (jsLower row.name)
      (fun c => { c with confidence := blendConf c.confidence row }) k]
    by_cases hk : k = jsLower row.name
    · rw [if_pos hk, Option.map_map]
      rfl
    · rw [if_neg hk]

theorem rows_fold_lookup (rows : List ClassificationRow) :
    ∀ (st : CMap × AttrStore) (k : String),
      (alookup (rows.foldl applyRowsStep st).1 k).map (fun c => (c.idx, c.name))
        = (alookup st.1 k).map (fun c => (c.idx, c.name)) := by
  induction rows with
  | nil => exact fun st k => rfl
  | cons row rows ih =>
    intro st k
    rw [List.foldl_cons, ih, applyRowsStep_lookup]

theorem applyRowsStep_entries (st : CMap × AttrStore) (row : ClassificationRow) :
    ∀ q ∈ (applyRowsStep st row).1,
      ∃ q0 ∈ st.1, q.1 = q0.1 ∧ q.2.idx = q0.2.idx ∧ q.2.name = q0.2.name := by
  intro q hq
  unfold applyRowsStep at hq
  cases h : alookup st.1 (jsLower row.name) with
  | none =>
    simp only [h] at hq
    exact ⟨q, hq, rfl, rfl, rfl⟩
  | some c =>
    simp only [h] at hq
    rcases List.mem_map.mp hq with ⟨p, hp, hpq⟩
    by_cases hpk : p.1 = jsLower row.name
    · refine ⟨p, hp, ?_⟩
      rw [← hpq, if_pos hpk]
      exact ⟨rfl, rfl, rfl⟩
    · refine ⟨p, hp, ?_⟩
      rw [← hpq, if_neg hpk]
      exact ⟨rfl, rfl, rfl⟩

theorem rows_fold_entries (rows : List ClassificationRow) :
    ∀ (st : CMap × AttrStore) (q : String × CloneRef),
      q ∈ (rows.foldl applyRowsStep st).1 →
      ∃ q0 ∈ st.1, q.1 = q0.1 ∧ q.2.idx = q0.2.idx ∧ q.2.name = q0.2.name := by
  induction rows with
  | nil => exact fun st q hq => ⟨q, hq, rfl, rfl, rfl⟩
  | cons row rows ih =>
    intro st q hq
    rw [List.foldl_cons] at hq
    rcases ih _ q hq with ⟨q1, hq1, h11, h12, h13⟩
    rcases applyRowsStep_entries st row q1 hq1 with ⟨q0, hq0, h01, h02, h03⟩
    exact ⟨q0, hq0, h11.trans h01, h12.trans h02, h13.trans h03⟩

theorem applyRowsStep_storeLength (st : CMap × AttrStore)
    (row : ClassificationRow) : (applyRowsStep st row).2.length = st.2.length := by
  unfold applyRowsStep
  cases h : alookup st.1 (jsLower row.name) <;> simp [h]

theorem rows_fold_storeLength (rows : List ClassificationRow) :
    ∀ st : CMap × AttrStore,
      (rows.foldl applyRowsStep st).2.length = st.2.length := by
  induction rows with
  | nil => exact fun st => rfl
  | cons row rows ih =>
    intro st
    rw [List.foldl_cons, ih, applyRowsStep_storeLength]

theorem getD_set_self {α : Type} (l : List α) (i : ℕ) (a d : α)
    (h : i < l.length) : (l.set i a).getD i d = a := by
  simp [List.getD_eq_getElem?_getD, List.getElem?_set_self h]

theorem getD_set_ne {α : Type} (l : List α) (i j : ℕ) (a d : α) (h : i ≠ j) :
    (l.set i a).getD j d = l.getD j d := by
  simp [List.getD_eq_getElem?_getD, List.getElem?_set_ne h]

theorem applyRowsStep_store_at (st : CMap × AttrStore) (row : ClassificationRow)
    (k : String) (i : ℕ)
    (hki : (alookup st.1 k).map CloneRef.idx = some i)
    (honly : ∀ q ∈ st.1, q.2.idx = i → q.1 = k)
    (hlen : i < st.2.length) :
    (applyRowsStep st row).2.getD i []
      = if jsLower row.name = k then rowPatch (st.2.getD i []) row
        else st.2.getD i [] := by
  unfold applyRowsStep
  cases hc : alookup st.1 (jsLower row.name) with
  | none =>
    simp only [hc]
    by_cases hk : jsLower row.name = k
    · rw [hk] at hc
      rw [hc] at hki
      simp at hki
    · rw [if_neg hk]
  | some c =>
    simp only [hc]
    by_cases hk : jsLower row.name = k
    · rw [hk] at hc
      rw [hc] at hki
      have hcidx : c.idx = i := Option.some.inj hki
      rw [if_pos hk, hcidx, getD_set_self _ _ _ _ hlen]
    · have hmem := alookup_mem _ _ _ hc
      have hne : c.idx ≠ i := fun hci => hk (honly (jsLower row.name, c) hmem hci)
      rw [if_neg hk]
      exact getD_set_ne _ _ _ _ _ hne

theorem applyRowsStep_lookup_idx (st : CMap × AttrStore) (row : ClassificationRow)
    (k : String) :
    (alookup (applyRowsStep st row).1 k).map CloneRef.idx
      = (alookup st.1 k).map CloneRef.idx := by
  have h := applyRowsStep_lookup st row k
  cases ha : alookup (applyRowsStep st row).1 k <;>
    cases hb : alookup st.1 k <;> rw [ha, hb] at h <;> simp_all

theorem rows_fold_store_at (rows : List ClassificationRow) :
    ∀ (st : CMap × AttrStore) (k : String) (i : ℕ),
      (alookup st.1 k).map CloneRef.idx = some i →
      (∀ q ∈ st.1, q.2.idx = i → q.1 = k) →
      i < st.2.length →
      (rows.foldl applyRowsStep st).2.getD i []
        = rows.foldl
            (fun a row => if jsLower row.name = k then rowPatch a row else a)
            (st.2.getD i []) := by
  induction rows with
  | nil =>
    intro st k i _ _ _
    rfl
  | cons row rows ih =>
    intro st k i hki honly hlen
    rw [List.foldl_cons, List.foldl_cons]
    have honly2 : ∀ q ∈ (applyRowsStep st row).1, q.2.idx = i → q.1 = k := by
      intro q hq hqi
      rcases applyRowsStep_entries st row q hq with ⟨q0, hq0, h1, h2, _⟩
      rw [h1]
      exact honly q0 hq0 (h2 ▸ hqi)
    rw [ih (applyRowsStep st row) k i
        (by rw [applyRowsStep_lookup_idx]; exact hki) honly2
        (by rw [applyRowsStep_storeLength]; exact hlen),
      applyRowsStep_store_at st row k i hki honly hlen]

theorem rows_fold_store_untouched (rows : List ClassificationRow) :
    ∀ (st : CMap × AttrStore) (i : ℕ), (∀ q ∈ st.1, q.2.idx ≠ i) →
      (rows.foldl applyRowsStep st).2.getD i [] = st.2.getD i [] := by
  induction rows with
  | nil =>
    intro st i _
    rfl
  | cons row rows ih =>
    intro st i h
    have hpres : ∀ q ∈ (applyRowsStep st row).1, q.2.idx ≠ i := by
      intro q hq
      rcases applyRowsStep_entries st row q hq with ⟨q0, hq0, _, h2, _⟩
      rw [h2]
      exact h q0 hq0
    rw [List.foldl_cons, ih _ i hpres]
    unfold applyRowsStep
    cases hc : alookup st.1 (jsLower row.name) with
    | none => simp only [hc]
    | some c =>
      simp only [hc]
      exact getD_set_ne _ _ _ _ _ (h _ (alookup_mem _ _ _ hc))

theorem copyBackStep_length (clones : List CloneRef) (S : AttrStore)
    (p : ℕ × AnalyzedEntity) : (copyBackStep clones S p).length = S.length := by
  unfold copyBackStep
  by_cases ht : p.2.type = .product
  · rw [if_pos ht]
    cases clones.find? (fun c => c.name == p.2.name) <;> simp
  · rw [if_neg ht]

theorem copyBack_getD_ne (clones : List CloneRef) (S : AttrStore)
    (p : ℕ × AnalyzedEntity) (i : ℕ) (h : p.1 ≠ i) :
    (copyBackStep clones S p).getD i [] = S.getD i [] := by
  unfold copyBackStep
  by_cases ht : p.2.type = .product
  · rw [if_pos ht]
    cases clones.find? (fun c => c.name == p.2.name) with
    | none => rfl
    | some cl =>
      rw [getD_set_ne _ _ _ _ _ h, getD_set_ne _ _ _ _ _ h]
  · rw [if_neg ht]

theorem copyback_fold_pos_untouched (entries : List (ℕ × AnalyzedEntity))
    (clones : List CloneRef) :
    ∀ (S : AttrStore) (i : ℕ), i ∉ entries.map Prod.fst →
      (entries.foldl (copyBackStep clones) S).getD i [] = S.getD i [] := by
  induction entries with
  | nil =>
    intro S i _
    rfl
  | cons q rest ih =>
    intro S i hi
    simp only [List.map_cons, List.mem_cons] at hi
    push_neg at hi
    rw [List.foldl_cons, ih _ i hi.2,
      copyBack_getD_ne _ _ _ _ (fun hc => hi.1 hc.symm)]

theorem copyback_fold_nonproduct (entries : List (ℕ × AnalyzedEntity))
    (clones : List CloneRef) :
    ∀ (S : AttrStore) (i : ℕ),
      (∀ q ∈ entries, q.1 = i → q.2.type ≠ .product) →
      (entries.foldl (copyBackStep clones) S).getD i [] = S.getD i [] := by
  induction entries with
  | nil =>
    intro S i _
    rfl
  | cons q rest ih =>
    intro S i h
    rw [List.foldl_cons, ih _ i (fun q2 hq2 => h q2 (List.mem_cons_of_mem _ hq2))]
    by_cases hq : q.1 = i
    · have hnp := h q (List.mem_cons_self _ _) hq
      unfold copyBackStep
      rw [if_neg hnp]
    · exact copyBack_getD_ne _ _ _ _ hq

theorem copyBackStep_self (clones : List CloneRef) (S : AttrStore) (i : ℕ)
    (e : AnalyzedEntity) (cl : CloneRef) (hlen : i < S.length)
    (ht : e.type = .product)
    (hfind : clones.find? (fun c => c.name == e.name) = some cl)
    (hcl : cl.idx = i) :
    (copyBackStep clones S (i, e)).getD i [] = selfAssignAttrs (S.getD i []) := by
  unfold copyBackStep
  rw [if_pos ht]
  simp only [hfind, hcl]
  rw [getD_set_self _ _ _ _ (by simpa using hlen),
    getD_set_self _ _ _ _ hlen]
  rfl

theorem copyback_fold_at_found (entries : List (ℕ × AnalyzedEntity))
    (clones : List CloneRef) :
    ∀ (S : AttrStore) (i : ℕ) (e : AnalyzedEntity) (cl : CloneRef),
      (entries.map Prod.fst).Nodup → (i, e) ∈ entries → i < S.length →
      e.type = .product →
      clones.find? (fun c => c.name == e.name) = some cl → cl.idx = i →
      (entries.foldl (copyBackStep clones) S).getD i []
        = selfAssignAttrs (S.getD i []) := by
  induction entries with
  | nil =>
    intro S i e cl _ h
    simp at h
  | cons q rest ih =>
    intro S i e cl hnd hmem hlen ht hfind hcl
    simp only [List.map_cons, List.nodup_cons] at hnd
    rw [List.foldl_cons]
    rcases List.mem_cons.mp hmem with hq | hq
    · cases hq
      have hni : i ∉ rest.map Prod.fst := hnd.1
      rw [copyback_fold_pos_untouched rest clones _ i hni]
      exact copyBackStep_self clones S i e cl hlen ht hfind hcl
    · have hqi : q.1 ≠ i := by
        intro hc
        exact hnd.1 (by rw [hc]; exact List.mem_map.mpr ⟨(i, e), hq, rfl⟩)
      have hS2 : (copyBackStep clones S q).getD i [] = S.getD i [] :=
        copyBack_getD_ne _ _ _ _ hqi
      have hlen2 : i < (copyBackStep clones S q).length := by
        rw [copyBackStep_length]
        exact hlen
      rw [ih (copyBackStep clones S q) i e cl hnd.2 hq hlen2 ht hfind hcl, hS2]

theorem clones_find_self (PI : List (ℕ × AnalyzedEntity))
    (rows : List ClassificationRow) (S : AttrStore) (i : ℕ) (e : AnalyzedEntity)
    (hnd : (PI.map (fun p => jsLower p.2.name)).Nodup)
    (hip : (i, e) ∈ PI) :
    ∃ cl, ((rows.foldl applyRowsStep (buildCloneMap PI, S)).1.map Prod.snd).find?
        (fun c => c.name == e.name) = some cl ∧ cl.idx = i := by
  have h0 : alookup (buildCloneMap PI) (jsLower e.name)
      = some ⟨i, e.name, e.confidence⟩ := buildCloneMap_lookup PI hnd (i, e) hip
  have h1 := rows_fold_lookup rows (buildCloneMap PI, S) (jsLower e.name)
  rw [show (buildCloneMap PI, S).1 = buildCloneMap PI from rfl, h0] at h1
  rcases Option.map_eq_some'.mp h1 with ⟨cF, hcF, hpair⟩
  have hFidx : cF.idx = i := (Prod.ext_iff.mp hpair).1
  have hFname : cF.name = e.name := (Prod.ext_iff.mp hpair).2
  have hmemF := alookup_mem _ _ _ hcF
  have hclone : cF ∈ (rows.foldl applyRowsStep (buildCloneMap PI, S)).1.map Prod.snd :=
    List.mem_map.mpr ⟨_, hmemF, rfl⟩
  have hsome : (((rows.foldl applyRowsStep (buildCloneMap PI, S)).1.map Prod.snd).find?
      (fun c => c.name == e.name)).isSome := by
    rw [List.find?_isSome]
    exact ⟨cF, hclone, by simp [hFname]⟩
  rcases Option.isSome_iff_exists.mp hsome with ⟨cl, hcl⟩
  refine ⟨cl, hcl, ?_⟩
  have hclname : cl.name = e.name := by
    have := List.find?_some hcl
    simpa using this
  rcases List.mem_map.mp (List.mem_of_find?_eq_some hcl) with ⟨q, hqF, hq2⟩
  rcases rows_fold_entries rows (buildCloneMap PI, S) q hqF with
    ⟨q0, hq0, _, hqidx, hqname⟩
  rcases buildCloneMap_entries PI q0 hq0 with ⟨p, hpPI, hq0eq⟩
  have hpname : p.2.name = e.name := by
    have h3 : q0.2.name = p.2.name := by rw [hq0eq]
    rw [← h3, ← hqname, hq2, hclname]
  have hpeq : p = (i, e) := by
    apply List.inj_on_of_nodup_map hnd hpPI hip
    show jsLower p.2.name = jsLower e.name
    rw [hpname]
  have h4 : q0.2.idx = p.1 := by rw [hq0eq]
  rw [← hq2, hqidx, h4, hpeq]

theorem readAttr_setAttrRaw_self (a : Attrs) (k : String) (v : Option String) :
    readAttr (setAttrRaw a k v) k = v := by
  unfold setAttrRaw readAttr
  by_cases hs : (alookup a k).isSome
  · rw [if_pos hs, alookup_mapUpdate a k (fun _ => v) k, if_pos rfl]
    cases h : alookup a k with
    | none =>
      rw [h] at hs
      simp at hs
    | some w => rfl
  · rw [if_neg hs, alookup_append,
      Option.not_isSome_iff_eq_none.mp hs]
    simp [alookup]

theorem readAttr_setAttrRaw_ne (a : Attrs) (k k2 : String) (v : Option String)
    (h : k ≠ k2) : readAttr (setAttrRaw a k v) k2 = readAttr a k2 := by
  unfold setAttrRaw readAttr
  by_cases hs : (alookup a k).isSome
  · rw [if_pos hs, alookup_mapUpdate a k (fun _ => v) k2,
      if_neg (fun hc => h hc.symm)]
  · rw [if_neg hs, alookup_append]
    cases hk2 : alookup a k2 with
    | some w => rfl
    | none => simp [alookup, fun hc : k = k2 => h hc]

theorem readAttr_selfAssign (a : Attrs) :
    readAttr (selfAssignAttrs a) "category" = readAttr a "category" ∧
    readAttr (selfAssignAttrs a) "subcategory" = readAttr a "subcategory" ∧
    readAttr (selfAssignAttrs a) "hsCode" = readAttr a "hsCode" := by
  unfold selfAssignAttrs
  refine ⟨?_, ?_, ?_⟩
  · rw [readAttr_setAttrRaw_ne _ _ _ _ (by decide), readAttr_setAttrRaw_self]
  · rw [readAttr_setAttrRaw_ne _ _ _ _ (by decide),
      readAttr_setAttrRaw_ne _ _ _ _ (by decide)]
  · rw [readAttr_setAttrRaw_self, readAttr_setAttrRaw_ne _ _ _ _ (by decide)]

theorem readAttr_rowPatch (a : Attrs) (row : ClassificationRow) :
    readAttr (rowPatch a row) "category" = row.category ∧
    readAttr (rowPatch a row) "subcategory" =
      (if truthyVal row.subcategory = true then row.subcategory
       else readAttr a "subcategory") ∧
    readAttr (rowPatch a row) "hsCode" =
      (if truthyVal row.hsCode = true then row.hsCode
       else readAttr a "hsCode") := by
  by_cases h1 : truthyVal row.subcategory = true <;>
    by_cases h2 : truthyVal row.hsCode = true <;>
      simp only [rowPatch, h1, h2, Bool.false_eq_true, eq_self_iff_true,
        if_true, if_false] <;>
      refine ⟨?_, ?_, ?_⟩ <;>
      simp only [readAttr_setAttrRaw_self,
        readAttr_setAttrRaw_ne _ "hsCode" "category" _ (by decide),
        readAttr_setAttrRaw_ne _ "hsCode" "subcategory" _ (by decide),
        readAttr_setAttrRaw_ne _ "subcategory" "category" _ (by decide),
        readAttr_setAttrRaw_ne _ "subcategory" "hsCode" _ (by decide),
        readAttr_setAttrRaw_ne _ "category" "subcategory" _ (by decide),
        readAttr_setAttrRaw_ne _ "category" "hsCode" _ (by decide)]

theorem matchRows_fold_noMatch (rows : List ClassificationRow) (k : String) :
    ∀ a0 : Attrs, (∀ r ∈ rows, jsLower r.name ≠ k) →
      rows.foldl (fun a row => if jsLower row.name = k then rowPatch a row else a) a0
        = a0 := by
  induction rows with
  | nil =>
    intro a0 _
    rfl
  | cons r rows ih =>
    intro a0 h
    rw [List.foldl_cons, if_neg (h r (List.mem_cons_self _ _)),
      ih a0 (fun r2 h2 => h r2 (List.mem_cons_of_mem _ h2))]

theorem matchRows_fold_unique (rows : List ClassificationRow) (k : String) :
    ∀ (a0 : Attrs) (r : ClassificationRow), r ∈ rows → jsLower r.name = k →
      (rows.map (fun row => jsLower row.name)).Nodup →
      rows.foldl (fun a row => if jsLower row.name = k then rowPatch a row else a) a0
        = rowPatch a0 r := by
  induction rows with
  | nil =>
    intro a0 r h
    simp at h
  | cons r0 rows ih =>
    intro a0 r hr hk hnd
    simp only [List.map_cons, List.nodup_cons] at hnd
    rw [List.foldl_cons]
    by_cases h0 : jsLower r0.name = k
    · rw [if_pos h0]
      have hr0 : r = r0 := by
        rcases List.mem_cons.mp hr with h | h
        · exact h
        · exact absurd (List.mem_map.mpr ⟨r, h, hk.trans h0.symm⟩) hnd.1
      rw [matchRows_fold_noMatch rows k _
        (fun r2 h2 hc => hnd.1 (List.mem_map.mpr ⟨r2, h2, hc.trans h0.symm⟩)), hr0]
    · rw [if_neg h0]
      have hr2 : r ∈ rows := by
        rcases List.mem_cons.mp hr with h | h
        · rw [h] at hk
          exact absurd hk h0
        · exact h
      exact ih a0 r hr2 hk hnd.2

theorem storeOf_getD (l : List AnalyzedEntity) (i : ℕ) (e : AnalyzedEntity)
    (h : (i, e) ∈ l.enum) : (storeOf l).getD i [] = e.attributes := by
  have hg : l.get? i = some e := List.mk_mem_enum_iff_get?.mp h
  rw [storeOf, List.getD_eq_getElem?_getD, List.getElem?_map,
    ← List.get?_eq_getElem?, hg]
  rfl

theorem enum_functional {α : Type} (l : List α) (i : ℕ) (a b : α)
    (ha : (i, a) ∈ l.enum) (hb : (i, b) ∈ l.enum) : a = b := by
  have h1 := List.mk_mem_enum_iff_get?.mp ha
  have h2 := List.mk_mem_enum_iff_get?.mp hb
  rw [h1] at h2
  exact Option.some.inj h2

theorem enum_lt_length {α : Type} (l : List α) (i : ℕ) (e : α)
    (h : (i, e) ∈ l.enum) : i < l.length := by
  rcases List.get?_eq_some.mp (List.mk_mem_enum_iff_get?.mp h) with ⟨hlt, _⟩
  exact hlt

theorem zip_enumFrom_align {α : Type} (l : List α) :
    ∀ (n : ℕ) (q : (ℕ × α) × α), q ∈ (l.enumFrom n).zip l → q.1.2 = q.2 := by
  induction l with
  | nil =>
    intro n q h
    simp at h
  | cons a l ih =>
    intro n q h
    simp only [List.enumFrom_cons, List.zip_cons_cons] at h
    rcases List.mem_cons.mp h with h | h
    · rw [h]
    · exact ih (n + 1) q h

theorem zip_enum_align {α : Type} (l : List α) (q : (ℕ × α) × α)
    (h : q ∈ l.enum.zip l) : q.1.2 = q.2 :=
  zip_enumFrom_align l 0 q h

theorem prodIdx_mem (l : List AnalyzedEntity) (p : ℕ × AnalyzedEntity)
    (hp : p ∈ prodIdx l) : p ∈ l.enum ∧ p.2.type = .product := by
  unfold prodIdx at hp
  refine ⟨List.mem_of_mem_filter hp, ?_⟩
  have := List.of_mem_filter hp
  simpa using this

theorem mem_prodIdx (l : List AnalyzedEntity) (i : ℕ) (e : AnalyzedEntity)
    (h : (i, e) ∈ l.enum) (ht : e.type = .product) : (i, e) ∈ prodIdx l := by
  unfold prodIdx
  exact List.mem_filter.mpr ⟨h, by simpa using ht⟩

theorem classifyPE_store_untouched (B : Backend)
    (PI : List (ℕ × AnalyzedEntity)) (S : AttrStore) (i : ℕ)
    (h : ∀ p ∈ PI, p.1 ≠ i) :
    (classifyProductEntities B PI S).2.getD i [] = S.getD i [] := by
  have hm0 : ∀ q ∈ buildCloneMap PI, q.2.idx ≠ i := by
    intro q hq
    rcases buildCloneMap_entries PI q hq with ⟨p, hp, hqe⟩
    rw [hqe]
    exact h p hp
  unfold classifyProductEntities
  cases hmc : B.modelCall (constructProductClassificationPrompt
      (PI.map (productForPrompt S))) with
  | error msg => simp only [hmc]
  | ok resp =>
    simp only [hmc]
    unfold parseProductClassificationResponse
    cases hj : jsonSpan resp with
    | none => simp only [hj]
    | some j =>
      simp only [hj]
      cases hd : B.decodeClassifications j with
      | parseError => simp only [hd]
      | noClassificationsArray => simp only [hd]
      | classifications rows =>
        simp only [hd]
        exact rows_fold_store_untouched rows (buildCloneMap PI, S) i hm0

theorem classifyStore_nonproduct (B : Backend) (l : List AnalyzedEntity)
    (i : ℕ) (e : AnalyzedEntity) (hie : (i, e) ∈ l.enum)
    (hnp : e.type ≠ .product) : (classifyStore B l).getD i [] = e.attributes := by
  unfold classifyStore
  have h1 : (classifyProductEntities B (prodIdx l) (storeOf l)).2.getD i []
      = (storeOf l).getD i [] := by
    apply classifyPE_store_untouched
    intro p hp hpi
    rcases prodIdx_mem l p hp with ⟨hpe, hpt⟩
    have hpe2 : (i, p.2) ∈ l.enum := by
      rw [← hpi]
      exact hpe
    exact hnp (enum_functional l i p.2 e hpe2 hie ▸ hpt)
  rw [copyback_fold_nonproduct l.enum _ _ i ?hcb, h1, storeOf_getD l i e hie]
  case hcb =>
    intro q hq hqi
    have hq2 : (i, q.2) ∈ l.enum := by
      rw [← hqi]
      exact hq
    rw [enum_functional l i q.2 e hq2 hie]
    exact hnp

theorem classifyEntities_pos (B : Backend) (l : List AnalyzedEntity)
    (hp : (prodIdx l).length > 0) :
    classifyEntities B l = l.enum.map
      (fun p => { p.2 with attributes := (classifyStore B l).getD p.1 [] }) := by
  unfold classifyEntities
  rw [if_pos hp]

theorem classifyEntities_neg (B : Backend) (l : List AnalyzedEntity)
    (hp : ¬ (prodIdx l).length > 0) : classifyEntities B l = l := by
  unfold classifyEntities
  rw [if_neg hp]

theorem mem_zip_self {α : Type} (l : List α) (p : α × α) (h : p ∈ l.zip l) :
    p.1 = p.2 := by
  induction l with
  | nil => simp at h
  | cons a l ih =>
    rcases List.mem_cons.mp h with h | h
    · rw [h]
    · exact ih h

/-- **C3 counterexample.** With one fused product entity of confidence 0.6
and a well-formed classification row carrying confidence 0.8, the blended
confidence 0.7 exists only on the classifier's per-product clone; the list
carried forward to the scorer still holds confidence 0.6 (while its
attributes — including the subcategory — were patched in place through the
clone's shared attributes object). -/
theorem classifyEntities_blend_counterexample :
    (classifyEntities classifierBackend [prodWidget]).map (fun e => e.confidence)
      = [6/10] ∧
    (classifyEntities classifierBackend [prodWidget]).map
      (fun e => readAttr e.attributes "subcategory") = [some "Hand Tools"] ∧
    ((applyClassificationRows [widgetRow] (prodIdx [prodWidget])
        (storeOf [prodWidget])).1.map (fun c => c.confidence) = [7/10]) ∧
    ((6:ℚ)/10 ≠ 7/10) := by
  with_unfolding_all decide

/-- **C3 amended.** The classifier's attribute patches do land on the list
the pipeline carries forward — `category` unconditionally, `subcategory`
and the `hsCode` export code when truthy — because the per-product clone of
line 584 shares its `attributes` object with the carried entity. Only the
blended confidence `(confidence + returned_confidence) / 2` is dropped: it
is computed on the clone's own `confidence` (a by-value copy), so the
carried-forward list keeps every entity's original confidence (as well as
its name, type, rawText and contexts), and non-product entities are
returned unchanged. The patch clause is stated for a fused-shape input
(pairwise-distinct lowercased product names) and a response whose rows have
pairwise-distinct lowercased names, matched by lowercased name. -/
theorem classifyEntities_amended (B : Backend) (l : List AnalyzedEntity) :
    ((classifyEntities B l).map (fun e => e.confidence)
      = l.map (fun e => e.confidence)) ∧
    (∀ p ∈ (classifyEntities B l).zip l,
      p.1.confidence = p.2.confidence ∧ p.1.name = p.2.name ∧
      p.1.type = p.2.type ∧ p.1.rawText = p.2.rawText ∧
      p.1.contexts = p.2.contexts ∧
      (p.2.type ≠ .product → p.1 = p.2)) ∧
    (∀ (c c2 : ℚ) (row : ClassificationRow), row.confidence = some c2 → c2 ≠ 0 →
      blendConf c row = (c + c2) / 2) ∧
    (∀ rows : List ClassificationRow,
      classifyProductEntities B (prodIdx l) (storeOf l)
        = applyClassificationRows rows (prodIdx l) (storeOf l) →
      ((prodIdx l).map (fun p => jsLower p.2.name)).Nodup →
      (rows.map (fun row => jsLower row.name)).Nodup →
      ∀ p ∈ (classifyEntities B l).zip l, p.2.type = .product →
      ∀ row ∈ rows, jsLower row.name = jsLower p.2.name →
        readAttr p.1.attributes "category" = row.category ∧
        readAttr p.1.attributes "subcategory" =
          (if truthyVal row.subcategory = true then row.subcategory
           else readAttr p.2.attributes "subcategory") ∧
        readAttr p.1.attributes "hsCode" =
          (if truthyVal row.hsCode = true then row.hsCode
           else readAttr p.2.attributes "hsCode")) := by
  refine ⟨?_, ?_, ?_, ?_⟩
  · by_cases hp : (prodIdx l).length > 0
    · rw [classifyEntities_pos B l hp, List.map_map]
      have h1 : ∀ p ∈ l.enum,
          ((fun e : AnalyzedEntity => e.confidence) ∘
            (fun p : ℕ × AnalyzedEntity =>
              { p.2 with attributes := (classifyStore B l).getD p.1 [] })) p
          = ((fun e : AnalyzedEntity => e.confidence) ∘ Prod.snd) p :=
        fun p _ => rfl
      rw [List.map_congr_left h1, ← List.map_map, List.enum_map_snd]
    · rw [classifyEntities_neg B l hp]
  · intro p hp2
    by_cases hp : (prodIdx l).length > 0
    · rw [classifyEntities_pos B l hp, List.zip_map_left] at hp2
      rcases List.mem_map.mp hp2 with ⟨q, hq, hpq⟩
      obtain ⟨⟨i, ee⟩, b⟩ := q
      have halign : ee = b := zip_enum_align l _ hq
      subst halign
      have hqenum : (i, ee) ∈ l.enum := (List.of_mem_zip hq).1
      rw [← hpq]
      refine ⟨rfl, rfl, rfl, rfl, rfl, ?_⟩
      intro hne
      show ({ ee with attributes := (classifyStore B l).getD i [] }
        : AnalyzedEntity) = ee
      rw [classifyStore_nonproduct B l i ee hqenum hne]
    · rw [classifyEntities_neg B l hp] at hp2
      have heq : p.1 = p.2 := mem_zip_self l p hp2
      rw [heq]
      exact ⟨rfl, rfl, rfl, rfl, rfl, fun _ => rfl⟩
  · intro c c2 row hc hc0
    simp only [blendConf, hc]
    rw [if_neg hc0]
  · intro rows hrows hdp hdr p hp2 hprod row hrow hname
    have hmem2 : p.2 ∈ l := (List.of_mem_zip (show (p.1, p.2) ∈ _ from hp2)).2
    obtain ⟨i0, hi0⟩ : ∃ i, (i, p.2) ∈ l.enum := by
      rcases List.mem_iff_get?.mp hmem2 with ⟨n, hn⟩
      exact ⟨n, List.mk_mem_enum_iff_get?.mpr hn⟩
    have hp : (prodIdx l).length > 0 :=
      List.length_pos.mpr (List.ne_nil_of_mem (mem_prodIdx l i0 p.2 hi0 hprod))
    rw [classifyEntities_pos B l hp, List.zip_map_left] at hp2
    rcases List.mem_map.mp hp2 with ⟨q, hq, hpq⟩
    obtain ⟨⟨i, ee⟩, b⟩ := q
    have halign : ee = b := zip_enum_align l _ hq
    subst halign
    have hqenum : (i, ee) ∈ l.enum := (List.of_mem_zip hq).1
    subst hpq
    have hprod2 : ee.type = .product := hprod
    have hname2 : jsLower row.name = jsLower ee.name := hname
    have hiPI : (i, ee) ∈ prodIdx l := mem_prodIdx l i ee hqenum hprod2
    have hlen0 : i < (storeOf l).length := by
      rw [storeOf, List.length_map]
      exact enum_lt_length l i ee hqenum
    have hki : (alookup (buildCloneMap (prodIdx l)) (jsLower ee.name)).map
        CloneRef.idx = some i := by
      rw [buildCloneMap_lookup (prodIdx l) hdp (i, ee) hiPI]
      rfl
    have honly : ∀ q2 ∈ buildCloneMap (prodIdx l), q2.2.idx = i →
        q2.1 = jsLower ee.name := by
      intro q2 hq2 hq2i
      rcases buildCloneMap_entries _ q2 hq2 with ⟨p2, hp2i, hq2e⟩
      rw [hq2e] at hq2i ⊢
      have hp2enum : (i, p2.2) ∈ l.enum := by
        rw [← show p2.1 = i from hq2i]
        exact (prodIdx_mem l p2 hp2i).1
      rw [enum_functional l i p2.2 ee hp2enum hqenum]
    have hmid : ((rows.foldl applyRowsStep
        (buildCloneMap (prodIdx l), storeOf l)).2).getD i []
        = rowPatch ee.attributes row := by
      rw [rows_fold_store_at rows (buildCloneMap (prodIdx l), storeOf l)
        (jsLower ee.name) i hki honly hlen0]
      rw [show (buildCloneMap (prodIdx l), storeOf l).2.getD i []
        = ee.attributes from storeOf_getD l i ee hqenum]
      exact matchRows_fold_unique rows (jsLower ee.name) ee.attributes row
        hrow hname2 hdr
    rcases clones_find_self (prodIdx l) rows (storeOf l) i ee hdp hiPI with
      ⟨cl, hfind, hcl⟩
    have hfin : (classifyStore B l).getD i []
        = selfAssignAttrs (rowPatch ee.attributes row) := by
      unfold classifyStore
      rw [hrows]
      unfold applyClassificationRows
      rw [copyback_fold_at_found l.enum _ _ i ee cl ?ndfst hqenum ?hlenmid
        hprod2 hfind hcl, hmid]
      case ndfst =>
        rw [List.enum_map_fst]
        exact List.nodup_range _
      case hlenmid =>
        rw [rows_fold_storeLength]
        exact hlen0
    refine ⟨?_, ?_, ?_⟩
    · show readAttr ((classifyStore B l).getD i []) "category" = row.category
      rw [hfin, (readAttr_selfAssign _).1, (readAttr_rowPatch _ _).1]
    · show readAttr ((classifyStore B l).getD i []) "subcategory" = _
      rw [hfin, (readAttr_selfAssign _).2.1, (readAttr_rowPatch _ _).2.1]
      rfl
    · show readAttr ((classifyStore B l).getD i []) "hsCode" = _
      rw [hfin, (readAttr_selfAssign _).2.2, (readAttr_rowPatch _ _).2.2]
      rfl

theorem classifyEntities_amended_witness :
    blendConf prodWidget.confidence widgetRow
      = (prodWidget.confidence + 8/10) / 2 ∧
    widgetAfterClassify.confidence = prodWidget.confidence ∧
    readAttr widgetAfterClassify.attributes "subcategory" = some "Hand Tools" := by
  have h := classifyEntities_amended classifierBackend [prodWidget]
  refine ⟨h.2.2.1 prodWidget.confidence (8/10) widgetRow rfl (by norm_num), ?_, ?_⟩
  · exact (h.2.1 (widgetAfterClassify, prodWidget)
      (by with_unfolding_all decide)).1
  · have h4 := h.2.2.2 [widgetRow] (by with_unfolding_all decide)
      (by with_unfolding_all decide) (by with_unfolding_all decide)
      (widgetAfterClassify, prodWidget) (by with_unfolding_all decide) rfl
      widgetRow (List.mem_singleton.mpr rfl) (by with_unfolding_all decide)
    rw [h4.2.1]
    with_unfolding_all decide

/-! ## Model-extractor confidence (claim C8) -/

/-- **C8 counterexample.** A well-formed response row that self-reports a
confidence of exactly 0 does not keep that score: `entity.confidence || 0.5`
treats 0 as falsy, so the produced entity has confidence 0.5, not 0 — and
0.5 is therefore produced not only when the score is omitted. -/
theorem parseAIResponse_zero_conf_counterexample :
    (parseAIResponseToEntities decodeZeroRow "\x7b\x7d" [.product]).map
      (fun e => e.confidence) = [1/2] ∧
    zeroConfRow.confidence = some 0 ∧
    ((1:ℚ)/2 ≠ 0) := by
  with_unfolding_all decide

/-- **C8 amended.** For every well-formed model response, each produced
entity's confidence is the row's self-reported score when that score is
present and nonzero, and is 0.5 when the score is omitted **or equal to 0**
(the `|| 0.5` default also fires on the falsy score 0). -/
theorem parseAIResponse_confidence_amended (d : String → DecodedAIResponse)
    (s j : String) (ets : List EntityType) (rows : List AIEntityRow)
    (h1 : jsonSpan s = some j) (h2 : d j = .entities rows) :
    parseAIResponseToEntities d s ets = parseRows ets rows ∧
    (∀ (r : AIEntityRow) (c : ℚ), r.confidence = some c → c ≠ 0 →
      rowConfidence r.confidence = c) ∧
    (∀ r : AIEntityRow, (r.confidence = none ∨ r.confidence = some 0) →
      rowConfidence r.confidence = 1/2) ∧
    (∀ e ∈ parseRows ets rows, ∃ r ∈ rows,
      e.confidence = rowConfidence r.confidence) := by
  refine ⟨?_, ?_, ?_, ?_⟩
  · simp only [parseAIResponseToEntities, h1, h2]
  · intro r c hr hc
    rw [hr]
    simp [rowConfidence, hc]
  · intro r hr
    rcases hr with hr | hr <;> rw [hr] <;> simp [rowConfidence]
  · intro e he
    rcases List.mem_filterMap.mp he with ⟨r, hr, hfr⟩
    refine ⟨r, hr, ?_⟩
    cases hst : strToEntityType r.rowType with
    | none =>
      rw [hst] at hfr
      simp at hfr
    | some t =>
      rw [hst] at hfr
      by_cases hmem : t ∈ ets
      · simp only [if_pos hmem, Option.some.injEq] at hfr
        rw [← hfr]
      · simp only [if_neg hmem] at hfr
        exact Option.noConfusion hfr

theorem parseAIResponse_confidence_amended_witness :
    parseAIResponseToEntities decodeThreeQuarterRow "\x7b\x7d" [.product]
      = parseRows [.product] [threeQuarterRow] ∧
    rowConfidence threeQuarterRow.confidence = 3/4 := by
  have h := parseAIResponse_confidence_amended decodeThreeQuarterRow "\x7b\x7d" "\x7b\x7d"
    [.product] [threeQuarterRow] (by with_unfolding_all decide) rfl
  exact ⟨h.1, h.2.1 threeQuarterRow (3/4) rfl (by norm_num)⟩

/-! ## Error degradation (claim C9) and options-independence (claim C10) -/

/-- **C9.** A model response with no JSON object (and likewise any response
whose extracted span fails `JSON.parse` or lacks an `entities` array) makes
the model-based extractor return the empty list, and `analyzeContent` on a
ready service still returns a `ContentAnalysisResponse` for every backend
behaviour — backend failures degrade the result, they never surface as an
error. -/
theorem pipeline_degrades_gracefully (B : Backend) (req : ContentAnalysisRequest)
    (t : ℚ) (d : String → DecodedAIResponse) (s : String) (ets : List EntityType)
    (hready : B.ready = true) (hs : jsonSpan s = none) :
    parseAIResponseToEntities d s ets = [] ∧
    (∀ (s2 j : String) (ets2 : List EntityType), jsonSpan s2 = some j →
      (d j = .parseError ∨ d j = .noEntitiesArray) →
      parseAIResponseToEntities d s2 ets2 = []) ∧
    ∃ r, analyzeContent B req t = .ok r := by
  refine ⟨?_, ?_, ?_⟩
  · simp only [parseAIResponseToEntities, hs]
  · intro s2 j ets2 hj hd
    rcases hd with hd | hd <;> simp only [parseAIResponseToEntities, hj, hd]
  · exact ⟨_, by rw [analyzeContent, if_neg (by simp [hready])]⟩

theorem pipeline_degrades_gracefully_witness :
    parseAIResponseToEntities decodeAlwaysFails "no json here at all" [] = [] ∧
    (analyzeContent nlpOnlyBackend businessOnlyRequest 0).toOption.isSome = true := by
  have h := pipeline_degrades_gracefully nlpOnlyBackend businessOnlyRequest 0
    decodeAlwaysFails "no json here at all" [] rfl (by with_unfolding_all decide)
  refine ⟨h.1, ?_⟩
  obtain ⟨r, hr⟩ := h.2.2
  rw [hr]
  rfl

/-- **C10.** `analyzeContent` never reads `request.options`: two requests
identical up to their `options` field produce identical results under any
backend, so no confidence-threshold filtering and no entity cap is ever
applied — witnessed concretely by a run whose options demand a 0.99
threshold and a 0-entity cap yet still yield one entity with aggregate
confidence 1. -/
theorem analyzeContent_ignores_options (B : Backend)
    (r1 r2 : ContentAnalysisRequest) (t : ℚ)
    (hc : r1.content = r2.content) (hu : r1.sourceUrl = r2.sourceUrl)
    (hst : r1.sourceType = r2.sourceType) (he : r1.entityTypes = r2.entityTypes) :
    analyzeContent B r1 t = analyzeContent B r2 t ∧
    ((analyzeContent nlpOnlyBackend businessOnlyRequestOpt 0).toOption
        = some gadgetResponse ∧
      populatedOptions.maxEntities = some 0 ∧
      populatedOptions.confidenceThreshold = some (99/100) ∧
      gadgetResponse.entities.length = 1 ∧ gadgetResponse.confidence = 1) := by
  constructor
  · unfold analyzeContent
    rw [hc, he]
  · exact ⟨by with_unfolding_all decide, rfl, rfl, rfl, rfl⟩

theorem analyzeContent_ignores_options_witness :
    analyzeContent nlpOnlyBackend businessOnlyRequest 0
      = analyzeContent nlpOnlyBackend businessOnlyRequestOpt 0 :=
  (analyzeContent_ignores_options nlpOnlyBackend businessOnlyRequest
    businessOnlyRequestOpt 0 rfl rfl rfl rfl).1

/-! ## Pipeline confidence-bound lemmas (claim C2) -/

theorem parseRows_mem (ets : List EntityType) (rows : List AIEntityRow)
    (e : AnalyzedEntity) (he : e ∈ parseRows ets rows) :
    e.type ∈ ets ∧ ∃ r ∈ rows, e.confidence = rowConfidence r.confidence := by
  rcases List.mem_filterMap.mp he with ⟨r, hr, hfr⟩
  cases hst : strToEntityType r.rowType with
  | none =>
    rw [hst] at hfr
    exact Option.noConfusion hfr
  | some t =>
    rw [hst] at hfr
    by_cases hmem : t ∈ ets
    · simp only [if_pos hmem, Option.some.injEq] at hfr
      rw [← hfr]
      exact ⟨hmem, r, hr, rfl⟩
    · simp only [if_neg hmem] at hfr
      exact Option.noConfusion hfr

theorem extractNLP_nonneg (B : Backend) (content : String)
    (h : ∀ es, B.nlpProcess content = .ok es → ∀ n ∈ es, 0 ≤ n.accuracy) :
    ∀ e ∈ extractEntitiesWithNLP B content, 0 ≤ e.confidence := by
  intro e he
  unfold extractEntitiesWithNLP at he
  cases hp : B.nlpProcess content with
  | error msg =>
    rw [hp] at he
    simp at he
  | ok es =>
    rw [hp] at he
    rcases List.mem_filterMap.mp he with ⟨n, hn, hfn⟩
    cases hmap : nlpTypeMap n.entity with
    | none =>
      rw [hmap] at hfn
      exact Option.noConfusion hfn
    | some t =>
      rw [hmap] at hfn
      simp only [Option.some.injEq] at hfn
      rw [← hfn]
      exact h es hp n hn

theorem rowConfidence_nonneg (c : Option ℚ) (h : ∀ x, c = some x → 0 ≤ x) :
    0 ≤ rowConfidence c := by
  cases c with
  | none => norm_num [rowConfidence]
  | some x =>
    simp only [rowConfidence]
    by_cases hx : x = 0
    · rw [if_pos hx]
      norm_num
    · rw [if_neg hx]
      exact h x rfl

theorem extractAI_nonneg (B : Backend) (content : String) (ets : List EntityType)
    (h : ∀ s rows, B.decodeEntities s = .entities rows →
      ∀ row ∈ rows, ∀ c, row.confidence = some c → 0 ≤ c) :
    ∀ e ∈ extractEntitiesWithAI B content ets, 0 ≤ e.confidence := by
  intro e he
  unfold extractEntitiesWithAI at he
  cases hm : B.modelCall (constructEntityExtractionPrompt content ets) with
  | error msg =>
    rw [hm] at he
    simp at he
  | ok resp =>
    simp only [hm, parseAIResponseToEntities] at he
    cases hj : jsonSpan resp with
    | none =>
      simp only [hj] at he
      simp at he
    | some j =>
      simp only [hj] at he
      cases hd : B.decodeEntities j with
      | parseError =>
        simp only [hd] at he
        simp at he
      | noEntitiesArray =>
        simp only [hd] at he
        simp at he
      | entities rows =>
        simp only [hd] at he
        rcases (parseRows_mem ets rows e he).2 with ⟨row, hrow, hconf⟩
        rw [hconf]
        exact rowConfidence_nonneg row.confidence
          (fun c hc => h j rows hd row hrow c hc)

theorem merged_conf_from_inputs (a b : List AnalyzedEntity) (e : AnalyzedEntity)
    (h : e ∈ mergeEntities a b) : ∃ e2 ∈ a ++ b, e2.confidence = e.confidence := by
  have h1 := merged_conf_eq_max a b e h
  rw [confK] at h1
  rcases keyConfs_sub _ _ _ (omaxOf_mem _ _ h1) with ⟨e2, he2, _, hc⟩
  exact ⟨e2, he2, hc⟩

theorem classify_conf_from_inputs (B : Backend) (l : List AnalyzedEntity)
    (e : AnalyzedEntity) (h : e ∈ classifyEntities B l) :
    ∃ e2 ∈ l, e2.confidence = e.confidence := by
  by_cases hp : (prodIdx l).length > 0
  · rw [classifyEntities_pos B l hp] at h
    rcases List.mem_map.mp h with ⟨q, hq, hqe⟩
    have hq2 : q.2 ∈ l := by
      have hm : q.2 ∈ l.enum.map Prod.snd := List.mem_map.mpr ⟨q, hq, rfl⟩
      rwa [List.enum_map_snd] at hm
    exact ⟨q.2, hq2, by rw [← hqe]⟩
  · rw [classifyEntities_neg B l hp] at h
    exact ⟨e, h, rfl⟩

theorem adjustedConfidence_nonneg (e : AnalyzedEntity) (h : 0 ≤ e.confidence) :
    0 ≤ adjustedConfidence e := by
  unfold adjustedConfidence
  split
  · apply mul_nonneg h
    have h50 : (0:ℚ) ≤ min ((e.name.length : ℚ) / 50) (3/10) :=
      le_min (by positivity) (by norm_num)
    linarith
  · split_ifs
    · exact mul_nonneg h (by norm_num)
    · exact h
  · split_ifs
    · exact mul_nonneg h (by norm_num)
    · exact h
  · exact h

theorem adjustEntity_bounds (e : AnalyzedEntity) (h : 0 ≤ e.confidence) :
    0 ≤ (adjustEntity e).confidence ∧ (adjustEntity e).confidence ≤ 1 := by
  refine ⟨?_, min_le_right _ _⟩
  show 0 ≤ min (adjustedConfidence e) 1
  exact le_min (adjustedConfidence_nonneg e h) (by norm_num)

theorem except_ok_of_toOption {ε α : Type} (x : Except ε α) (y : α)
    (h : x.toOption = some y) : x = .ok y := by
  cases x with
  | ok a =>
    simp only [Except.toOption, Option.some.injEq] at h
    rw [h]
  | error e => simp [Except.toOption] at h

/-- **C2 counterexample.** With `entityTypes = [business]` and an NLP
recognizer that reports a `product` entity, the returned response contains a
`product` entity: the rule-based path never filters against the requested
`entityTypes`, so the claimed invariant `type ∈ entityTypes` fails. -/
theorem analyzeContent_invariant_counterexample :
    (analyzeContent nlpOnlyBackend businessOnlyRequest 0).toOption.map
      (fun r => r.entities.map (fun e => e.type)) = some [EntityType.product] ∧
    EntityType.product ∉ businessOnlyRequest.entityTypes := by
  with_unfolding_all decide

/-- **C2 amended.** Entities produced by the model-based extractor do have
`type ∈ entityTypes`, but rule-based entities are not filtered, so the type
half of the invariant holds only for the model path. The confidence half
holds whenever the backend-reported scores (NLP accuracies and model
confidences) are nonnegative: every entity of the returned response then has
confidence in `[0, 1]` (the upper bound comes from the scorer's 1.0 cap). -/
theorem analyzeContent_invariant_amended (B : Backend)
    (req : ContentAnalysisRequest) (t : ℚ) (r : ContentAnalysisResponse)
    (hnlp : ∀ es, B.nlpProcess req.content = .ok es → ∀ n ∈ es, 0 ≤ n.accuracy)
    (hai : ∀ s rows, B.decodeEntities s = .entities rows →
      ∀ row ∈ rows, ∀ c, row.confidence = some c → 0 ≤ c)
    (hr : analyzeContent B req t = .ok r) :
    (∀ (d : String → DecodedAIResponse) (s : String) (ets : List EntityType),
      ∀ e ∈ parseAIResponseToEntities d s ets, e.type ∈ ets) ∧
    (∀ e ∈ r.entities, 0 ≤ e.confidence ∧ e.confidence ≤ 1) := by
  constructor
  · intro d s ets e he
    unfold parseAIResponseToEntities at he
    cases hj : jsonSpan s with
    | none =>
      simp only [hj] at he
      simp at he
    | some j =>
      simp only [hj] at he
      cases hd : d j with
      | parseError =>
        simp only [hd] at he
        simp at he
      | noEntitiesArray =>
        simp only [hd] at he
        simp at he
      | entities rows =>
        simp only [hd] at he
        exact (parseRows_mem ets rows e he).1
  · unfold analyzeContent at hr
    by_cases hready : B.ready = false
    · rw [if_pos hready] at hr
      exact absurd hr (by simp)
    · rw [if_neg hready] at hr
      have h0 := Except.ok.inj hr
      intro e he
      rw [← h0] at he
      replace he : e ∈ calculateEntityConfidence (classifyEntities B
          (mergeEntities (extractEntitiesWithNLP B req.content)
            (extractEntitiesWithAI B req.content req.entityTypes))) := he
      rcases List.mem_map.mp he with ⟨e1, he1, rfl⟩
      apply adjustEntity_bounds
      rcases classify_conf_from_inputs _ _ _ he1 with ⟨e2, he2, hc2⟩
      rw [← hc2]
      rcases merged_conf_from_inputs _ _ _ he2 with ⟨e3, he3, hc3⟩
      rw [← hc3]
      rcases List.mem_append.mp he3 with h3 | h3
      · exact extractNLP_nonneg B req.content hnlp e3 h3
      · exact extractAI_nonneg B req.content req.entityTypes hai e3 h3

theorem analyzeContent_invariant_amended_witness :
    0 ≤ finalGadget.confidence ∧ finalGadget.confidence ≤ 1 := by
  have hn : ∀ es, nlpOnlyBackend.nlpProcess businessOnlyRequest.content = .ok es →
      ∀ n ∈ es, 0 ≤ n.accuracy := by
    intro es hes n hmem
    have hes2 : ([nlpGadget] : List NlpEntity) = es :=
      Except.ok.inj (hes : Except.ok [nlpGadget] = Except.ok es)
    rw [← hes2] at hmem
    have hn2 : n = nlpGadget := List.mem_singleton.mp hmem
    rw [hn2]
    norm_num [nlpGadget]
  have hA : ∀ s rows, nlpOnlyBackend.decodeEntities s = .entities rows →
      ∀ row ∈ rows, ∀ c, row.confidence = some c → 0 ≤ c := by
    intro s rows hd
    exact DecodedAIResponse.noConfusion
      (hd : DecodedAIResponse.parseError = DecodedAIResponse.entities rows)
  have hok : analyzeContent nlpOnlyBackend businessOnlyRequest 0
      = .ok gadgetResponse :=
    except_ok_of_toOption _ _ (by with_unfolding_all decide)
  have h := analyzeContent_invariant_amended nlpOnlyBackend businessOnlyRequest 0
    gadgetResponse hn hA hok
  exact h.2 finalGadget (List.mem_singleton.mpr rfl)
